import Mathlib

/-!
Verification of the contour-extraction and mesh-building core of Mono3D
(src/lib/stl-utils.ts).

The TypeScript source is embedded shallowly:

* 2D points (`THREE.Vector2`) become pairs of rationals (`Q2`); all numeric
  work of the source is plain field arithmetic and comparisons, which the
  rationals model exactly.
* `distToSegment` in the source returns a Euclidean distance (a square
  root) that is only ever used in order comparisons (`d > maxDist`,
  `maxDist > tolerance`) between nonnegative quantities.  The embedding
  `distToSegmentSq` computes the squared distance, and tolerances are
  squared accordingly; the order comparisons are preserved exactly for
  nonnegative tolerances.
* The recursive Douglas-Peucker simplifier `simplifyPath` is embedded with
  the same slicing structure (`take`/`drop`/`dropLast ++`).  Its guard
  carries two extra conjuncts (`1 ≤ index`, `index + 1 < length`) needed
  for the termination argument; `scanMax_guard_iff` proves they are
  redundant whenever the tolerance is nonnegative, which is the case for
  every call the pipeline makes (`simplification || 0.1`).
* Stateful parts (`ContourInfo.parent` object references, mutation of the
  parent shape hole list) are modelled with indices into the contour array
  and explicit state passing, which is observationally identical since the
  source only ever mutates the entry currently being classified or the
  parent shape found by reference.
-/

namespace Mono3D

/-- A 2D point (`THREE.Vector2`) with exact rational coordinates. -/
abbrev Q2 := ℚ × ℚ

/-- Squared Euclidean distance between two points
(`v.distanceToSquared(w)` in the source). -/
def distSq (a b : Q2) : ℚ := (a.1 - b.1) ^ 2 + (a.2 - b.2) ^ 2

/-- Embedding of `distToSegment` from stl-utils.ts lines 54-60, with the final square
root dropped: this is the squared distance of `p` to the segment `[v, w]`.
The source computes `t = ((p-v)·(w-v))/l2` clamped to `[0,1]` and returns
the distance to the interpolated point. -/
def distToSegmentSq (p v w : Q2) : ℚ :=
  let l2 := distSq v w
  if l2 = 0 then distSq p v
  else
    let t := ((p.1 - v.1) * (w.1 - v.1) + (p.2 - v.2) * (w.2 - v.2)) / l2
    let tc := max 0 (min 1 t)
    distSq p (v.1 + tc * (w.1 - v.1), v.2 + tc * (w.2 - v.2))

/-- The scan of stl-utils.ts lines 34-43: walk the interior points
(`i = 1 .. length-2`, passed here as an explicit list with its start
index), keeping the largest squared distance to the chord and the index of
its first occurrence.  `acc` is the running `(maxDist, index)` pair,
starting from `(0, 0)` exactly as in the source. -/
def scanMaxAux (p0 pl : Q2) : List Q2 → ℕ → ℚ × ℕ → ℚ × ℕ
  | [], _, acc => acc
  | q :: rest, i, acc =>
      let d := distToSegmentSq q p0 pl
      scanMaxAux p0 pl rest (i + 1) (if acc.1 < d then (d, i) else acc)

/-- The `(maxDist, index)` pair computed by stl-utils.ts lines 34-43 for a
point list: the chord is from the first to the last point, and the scan
covers the interior points `1 .. length-2`. -/
def scanMax (points : List Q2) : ℚ × ℕ :=
  scanMaxAux points.headI points.getLastI points.tail.dropLast 1 (0, 0)

/-- Embedding of `simplifyPath` from stl-utils.ts lines 31-52 (recursive
Douglas-Peucker), over squared distances and squared tolerance.  The two
extra guard conjuncts are redundant for `0 ≤ tolSq`
(see `scanMax_guard_iff`) and only serve the termination argument. -/
def simplifyPath (points : List Q2) (tolSq : ℚ) : List Q2 :=
  if points.length ≤ 2 then points
  else
    if tolSq < (scanMax points).1 ∧ 1 ≤ (scanMax points).2 ∧
        (scanMax points).2 + 1 < points.length then
      let left := simplifyPath (points.take ((scanMax points).2 + 1)) tolSq
      let right := simplifyPath (points.drop (scanMax points).2) tolSq
      left.dropLast ++ right
    else
      [points.headI, points.getLastI]
termination_by points.length
decreasing_by
  · simp only [List.length_take]
    omega
  · simp only [List.length_drop]
    omega

/-- The removals a zero-tolerance run may perform: a list of at most two
points is returned unchanged; a whole interior is dropped only when every
interior point lies exactly on the segment joining the two endpoints of
its sub-range (squared distance zero); longer runs split at a shared point
and glue the simplified halves. -/
inductive DPZero : List Q2 → List Q2 → Prop where
  | short (l : List Q2) (h : l.length ≤ 2) : DPZero l l
  | collapse (a b : Q2) (mid : List Q2)
      (h : ∀ p ∈ mid, distToSegmentSq p a b = 0) :
      DPZero (a :: (mid ++ [b])) [a, b]
  | glue (p1 p2 r1 r2 : List Q2) (h1 : DPZero p1 r1) (h2 : DPZero p2 r2)
      (hl : p1.getLast? = p2.head?) :
      DPZero (p1 ++ p2.tail) (r1.dropLast ++ r2)

/-- One shoelace term `p1.x * p2.y - p2.x * p1.y` (stl-utils.ts line 192,
also the summand of `THREE.ShapeUtils.area`). -/
def cross2 (a b : Q2) : ℚ := a.1 * b.2 - b.1 * a.2

/-- Shoelace terms over adjacent pairs of the list. -/
def edgeSum : List Q2 → ℚ
  | a :: b :: rest => cross2 a b + edgeSum (b :: rest)
  | _ => 0

/-- Signed shoelace sum of a closed polygon: consecutive pairs plus the
wrap-around pair from the last point back to the first, exactly the loop
of stl-utils.ts lines 189-193 (`THREE.ShapeUtils.area` computes the same
sum scaled by the positive factor 1/2, so all sign tests agree). -/
def signedArea (pts : List Q2) : ℚ :=
  edgeSum pts + cross2 pts.getLastI pts.headI

/-- Embedding of `THREE.ShapeUtils.isClockWise`: the signed area is negative. -/
def isClockWise (pts : List Q2) : Bool := decide (signedArea pts < 0)

/-- One iteration of the ray-casting loop of `isPointInPolygon`
(stl-utils.ts lines 64-70): `pi` is the current vertex, `pj` the previous
one. -/
def rayCastStep (p pi pj : Q2) (inside : Bool) : Bool :=
  if (decide (pi.2 > p.2) != decide (pj.2 > p.2)) &&
      decide (p.1 < (pj.1 - pi.1) * (p.2 - pi.2) / (pj.2 - pi.2) + pi.1)
  then !inside else inside

/-- Embedding of `isPointInPolygon` from stl-utils.ts lines 62-72: standard ray-casting
parity.  The source pairs vertex `i` with vertex `j = i - 1 mod n`
(starting at `j = n - 1`); the zip with `getLastI :: dropLast` builds
exactly those pairs. -/
def isPointInPolygon (point : Q2) (polygon : List Q2) : Bool :=
  (polygon.zip (polygon.getLastI :: polygon.dropLast)).foldl
    (fun inside pq => rayCastStep point pq.1 pq.2 inside) false

/-- A traced loop after simplification and normalisation: its world-space
point list and its absolute area (`ContourInfo.points` / `.area`). -/
structure ContourData where
  points : List Q2
  area : ℚ
deriving DecidableEq

/-- A classified contour (`ContourInfo` after the hierarchy pass).  The
source stores a parent object reference; the embedding stores the parent's
index in the processing order, which identifies the same object. -/
structure Classified where
  points : List Q2
  area : ℚ
  depth : ℕ
  parent : Option ℕ
  isHole : Bool
deriving DecidableEq

instance : Inhabited Classified := ⟨⟨[], 0, 0, none, false⟩⟩

/-- The inner parent scan of stl-utils.ts lines 212-222: walk the earlier
contours in order keeping `(index, area)` of the best candidate so far; a
candidate replaces the current best when its area is strictly smaller
(`p.area < minParentArea`, initially `Infinity`, modelled by `none`) and
it contains the probe point. -/
def findParentAux (pt : Q2) : List Classified → ℕ → Option (ℕ × ℚ) → Option (ℕ × ℚ)
  | [], _, best => best
  | p :: rest, j, best =>
      let ok := (match best with
        | none => true
        | some b => decide (p.area < b.2)) && isPointInPolygon pt p.points
      findParentAux pt rest (j + 1) (if ok then some (j, p.area) else best)

/-- One step of the hierarchy pass (stl-utils.ts lines 210-231): classify
the next contour against all already-classified ones and append it. -/
def classifyStep (done : List Classified) (c : ContourData) : List Classified :=
  let parent := findParentAux c.points.headI done 0 none
  let depth := match parent with
    | some jp => (done.getD jp.1 default).depth + 1
    | none => 0
  done ++ [⟨c.points, c.area, depth, parent.map Prod.fst, decide (depth % 2 ≠ 0)⟩]

/-- The hierarchy pass: fold `classifyStep` over the (area-sorted) contour
list.  Since each step only reads earlier entries and appends one new
entry, this state-passing fold is observationally the in-place loop of the
source. -/
def classify (cs : List ContourData) : List Classified :=
  cs.foldl classifyStep []

/-- An emitted `THREE.Shape`: the index of the contour that created it,
its outer boundary, and its accumulated hole rings. -/
structure ShapeAcc where
  index : ℕ
  outer : List Q2
  holes : List (List Q2)
deriving DecidableEq

/-- One step of the winding pass (stl-utils.ts lines 237-252).  A hole is
reversed to clockwise if needed and pushed onto its parent shape when that
shape exists (`obj.parent && obj.parent.shape`); a solid is reversed to
counter-clockwise if needed and instantiates a new shape.  The counter
tracks the position in the contour list, mirroring object identity. -/
def windStep (st : List ShapeAcc × ℕ) (c : Classified) : List ShapeAcc × ℕ :=
  let shapes := st.1
  let k := st.2
  if c.isHole then
    let ring := if ! isClockWise c.points then c.points.reverse else c.points
    match c.parent with
    | some p =>
        if shapes.any (fun s => decide (s.index = p)) then
          (shapes.map (fun s =>
            if s.index = p then ⟨s.index, s.outer, s.holes ++ [ring]⟩ else s), k + 1)
        else (shapes, k + 1)
    | none => (shapes, k + 1)
  else
    let outer := if isClockWise c.points then c.points.reverse else c.points
    (shapes ++ [⟨k, outer, []⟩], k + 1)

/-- The winding pass over the classified contours, returning the emitted
shapes (`finalShapes`). -/
def enforceWinding (cs : List Classified) : List ShapeAcc :=
  (cs.foldl windStep ([], 0)).1

/-- Embedding of `MeshSettings` from src/types.ts (numeric fields as rationals). -/
structure MeshSettings where
  heightScale : ℚ
  baseThickness : ℚ
  resolution : ℚ
  invert : Bool
  smoothing : ℚ
  removeBackground : Bool
  maskThreshold : ℚ
  flatTop : Bool
  contrast : ℚ
  simplification : ℚ
  enableBase : Bool

/-- The per-pixel scalar-field value of `traceContours` (stl-utils.ts
lines 88-96): weighted luminance normalised to `[0,1]`, multiplied by
normalised alpha, inverted on request, then contrast-stretched about the
midpoint with clamping when `contrast > 1`.  `r g b a` are the four
channel bytes of the pixel. -/
def gridValue (r g b a : ℕ) (invert : Bool) (contrast : ℚ) : ℚ :=
  let v1 := (0.299 * (r : ℚ) + 0.587 * (g : ℚ) + 0.114 * (b : ℚ)) / 255
  let v2 := v1 * ((a : ℚ) / 255)
  let v3 := if invert then 1 - v2 else v2
  if contrast > 1 then max 0 (min 1 ((v3 - 0.5) * contrast + 0.5)) else v3

/-- Modelled from the spec sentence quoted by the claim (spec.md, Scalar
Field Builder): luminance `0.299·R + 0.587·G + 0.114·B` divided by 255,
multiplied by `alpha/255`, replaced by `1 − value` under `invert`, then
remapped by `clamp01((value − 0.5)·contrast + 0.5)` when `contrast > 1`. -/
def gridValueSpec (r g b a : ℕ) (invert : Bool) (contrast : ℚ) : ℚ :=
  let lum := (0.299 * (r : ℚ) + 0.587 * (g : ℚ) + 0.114 * (b : ℚ)) / 255
  let withAlpha := lum * ((a : ℚ) / 255)
  let inverted := if invert then 1 - withAlpha else withAlpha
  if 1 < contrast then max 0 (min 1 ((inverted - 0.5) * contrast + 0.5))
  else inverted

/-- The relief-mode z coordinate assigned by `createSolidGeometry`
(stl-utils.ts lines 321-331): the pixel for grid vertex `i` is looked up
at `x = i % res`, `y = ⌊i / res⌋`, its plain channel average is
normalised by 255, optionally inverted, scaled by `heightScale` and
offset by `baseThickness`.  `pixelData` is the flat RGBA byte buffer. -/
def reliefZ (pixelData : ℕ → ℕ) (res : ℕ) (s : MeshSettings) (i : ℕ) : ℚ :=
  let x := i % res
  let y := i / res
  let idx := (y * res + x) * 4
  let val := ((pixelData idx : ℚ) + (pixelData (idx + 1) : ℚ) +
    (pixelData (idx + 2) : ℚ)) / 3 / 255
  let val2 := if s.invert then 1 - val else val
  val2 * s.heightScale + s.baseThickness

/-- Modelled from the spec sentence quoted by the claim (spec.md,
Heightfield Mesh Builder): `z = luminance · heightScale + baseThickness`
with luminance the plain channel average. -/
def reliefZSpec (pixelData : ℕ → ℕ) (res : ℕ) (invert : Bool)
    (heightScale baseThickness : ℚ) (i : ℕ) : ℚ :=
  let idx := ((i / res) * res + i % res) * 4
  let avg := ((pixelData idx : ℚ) + (pixelData (idx + 1) : ℚ) +
    (pixelData (idx + 2) : ℚ)) / 3 / 255
  let lum := if invert then 1 - avg else avg
  lum * heightScale + baseThickness

/-- The effective simplification tolerance passed to `simplifyPath`
(stl-utils.ts line 181): `simplification || 0.1`, where the only falsy
rational is 0. -/
def effectiveTolerance (simplification : ℚ) : ℚ :=
  if simplification = 0 then 0.1 else simplification

/-- Per-loop preparation of stl-utils.ts lines 180-203: simplify with the
effective tolerance (squared here, matching the squared distances of the
embedded simplifier), normalise to world coordinates (centre at the
origin, scale by `100 / res`, flip the vertical axis) and record the
absolute shoelace area. -/
def prepContour (res : ℚ) (simplification : ℚ) (l : List Q2) : ContourData :=
  let simplified := simplifyPath l ((effectiveTolerance simplification) ^ 2)
  let scale := 100 / res
  let points := simplified.map (fun p =>
    ((p.1 - res / 2) * scale, (res / 2 - p.2) * scale))
  ⟨points, |signedArea points|⟩

/-- The parameters of the vector-mode (`flatTop`) branch of
`createSolidGeometry` (stl-utils.ts lines 282-318), abstracted over the
geometry type: `mergeG` is `mergeGeometries` (which may yield no result),
`extrudeOne` is extrusion plus `normalizeGeometry`, `translateUp` is the
`translate(0, 0, baseThickness)` call, `normBase` the normalised and
re-translated base slab, and `emptyG` a fresh empty `BufferGeometry`. -/
structure SolidParams (G S : Type) where
  mergeG : List G → Option G
  extrudeOne : S → G
  translateUp : G → G
  normBase : G
  emptyG : G

/-- Control flow of the `flatTop` branch of `createSolidGeometry`
(stl-utils.ts lines 282-318): extrude all shapes, merge them (an empty
merge yields the empty geometry), then, when the base is enabled,
translate the merged extrusion up, merge it with the base slab, and fall
back to the translated extrusion when that merge yields no result. -/
def createSolidGeometryFlat {G S : Type} (P : SolidParams G S)
    (shapes : List S) (enableBase : Bool) : G :=
  if shapes.isEmpty then P.emptyG
  else
    match P.mergeG (shapes.map P.extrudeOne) with
    | none => P.emptyG
    | some merged =>
        if enableBase then
          let merged2 := P.translateUp merged
          match P.mergeG [P.normBase, merged2] with
          | none => merged2
          | some finalG => finalG
        else merged

/-- What the hierarchy pass guarantees for entry `i` of its output `out`
(stl-utils.ts lines 210-231): a `none` parent means no earlier contour
contains the probe point (the entry's first point); a `some j` parent is
an earlier contour containing the probe point whose area is minimal among
all earlier containing contours, and the depth is the parent's depth plus
one (zero without a parent); the hole flag is the parity of the depth. -/
def EntrySpec (out : List Classified) (i : ℕ) : Prop :=
  ((out.getD i default).parent = none →
    ∀ kk, kk < i →
      isPointInPolygon (out.getD i default).points.headI
        (out.getD kk default).points = false) ∧
  (∀ j, (out.getD i default).parent = some j → j < i ∧
    isPointInPolygon (out.getD i default).points.headI
      (out.getD j default).points = true ∧
    (∀ kk, kk < i →
      isPointInPolygon (out.getD i default).points.headI
        (out.getD kk default).points = true →
      (out.getD j default).area ≤ (out.getD kk default).area) ∧
    (out.getD i default).depth = (out.getD j default).depth + 1) ∧
  ((out.getD i default).parent = none → (out.getD i default).depth = 0) ∧
  ((out.getD i default).isHole = true ↔ (out.getD i default).depth % 2 = 1)

/-- Orientation invariant for a shape in the winding state: the outer ring
is never clockwise and no hole ring is counter-clockwise. -/
def WindOrient (s : ShapeAcc) : Prop :=
  0 ≤ signedArea s.outer ∧ ∀ r ∈ s.holes, signedArea r ≤ 0

instance : Inhabited ShapeAcc := ⟨⟨0, [], []⟩⟩

/-- A large square contour used as a concrete test input. -/
def sqBig : ContourData := ⟨[(0, 0), (10, 0), (10, 10), (0, 10)], 200⟩

/-- A smaller square strictly inside `sqBig`. -/
def sqSmall : ContourData := ⟨[(2, 2), (4, 2), (4, 4), (2, 4)], 8⟩

/-- A descending-area contour pair: a solid with a nested hole. -/
def csPair : List ContourData := [sqBig, sqSmall]

/-- A degenerate two-point (zero-area) contour, as produced by the
pipeline for a straight open marching-squares chain (e.g. a half-plane
image) after simplification. -/
def degenContour : ContourData := ⟨[(0, 0), (1, 0)], 0⟩

/-- A concrete zig-zag path for simplifier tests. -/
def demoPath : List Q2 := [(0, 0), (1, 1), (2, 0), (3, 5)]

/-- A concrete oracle instance for the mesh-builder control flow: merging
two geometries fails, merging any other number succeeds. -/
def demoParams : SolidParams ℕ Unit where
  mergeG := fun l => if l.length = 2 then none else some 7
  extrudeOne := fun _ => 3
  translateUp := fun g => g + 1
  normBase := 9
  emptyG := 0

/-- Concrete pixel buffer: every byte is 100. -/
def demoPixels : ℕ → ℕ := fun _ => 100

/-- Concrete settings. -/
def demoSettingsA : MeshSettings :=
  ⟨5, 1, 4, false, 0, false, 1/2, false, 1, 0, true⟩

/-- Same relief-relevant fields as `demoSettingsA`, different contouring
fields (`maskThreshold`, `contrast`, `simplification`). -/
def demoSettingsB : MeshSettings :=
  ⟨5, 1, 4, false, 0, false, 9/10, false, 3, 7, true⟩

theorem distSq_nonneg (a b : Q2) : 0 ≤ distSq a b := by
  unfold distSq; positivity

theorem distToSegmentSq_nonneg (p v w : Q2) : 0 ≤ distToSegmentSq p v w := by
  unfold distToSegmentSq
  dsimp only
  split <;> apply distSq_nonneg

theorem scanMaxAux_append (p0 pl : Q2) (A B : List Q2) (i : ℕ) (acc : ℚ × ℕ) :
    scanMaxAux p0 pl (A ++ B) i acc =
      scanMaxAux p0 pl B (i + A.length) (scanMaxAux p0 pl A i acc) := by
  induction A generalizing i acc with
  | nil => simp [scanMaxAux]
  | cons q rest ih =>
      simp only [List.cons_append, scanMaxAux, List.append_eq, List.length_cons]
      have h1 : i + 1 + rest.length = i + (rest.length + 1) := by omega
      rw [ih, h1]

theorem scanMaxAux_le (p0 pl : Q2) (l : List Q2) (i : ℕ) (acc : ℚ × ℕ) :
    acc.1 ≤ (scanMaxAux p0 pl l i acc).1 ∧
      ∀ x ∈ l, distToSegmentSq x p0 pl ≤ (scanMaxAux p0 pl l i acc).1 := by
  induction l generalizing i acc with
  | nil => simp [scanMaxAux]
  | cons q rest ih =>
      simp only [scanMaxAux, List.mem_cons]
      have hstep : acc.1 ≤ (if acc.1 < distToSegmentSq q p0 pl
          then (distToSegmentSq q p0 pl, i) else acc).1 := by
        split <;> simp_all [le_of_lt]
      have hq : distToSegmentSq q p0 pl ≤ (if acc.1 < distToSegmentSq q p0 pl
          then (distToSegmentSq q p0 pl, i) else acc).1 := by
        split
        · simp
        · simpa using le_of_not_lt (by assumption)
      refine ⟨le_trans hstep (ih _ _).1, ?_⟩
      rintro x (rfl | hx)
      · exact le_trans hq (ih _ _).1
      · exact (ih _ _).2 x hx

theorem scanMaxAux_stable (p0 pl : Q2) (l : List Q2) (i : ℕ) (acc : ℚ × ℕ)
    (h : ∀ x ∈ l, distToSegmentSq x p0 pl ≤ acc.1) :
    scanMaxAux p0 pl l i acc = acc := by
  induction l generalizing i with
  | nil => simp [scanMaxAux]
  | cons q rest ih =>
      have hq : ¬ acc.1 < distToSegmentSq q p0 pl :=
        not_lt.mpr (h q (List.mem_cons_self q rest))
      simp only [scanMaxAux, if_neg hq]
      exact ih _ fun x hx => h x (List.mem_cons_of_mem q hx)

theorem scanMaxAux_lt (p0 pl : Q2) (l : List Q2) (i : ℕ) (acc : ℚ × ℕ) (c : ℚ)
    (hl : ∀ x ∈ l, distToSegmentSq x p0 pl < c) (hacc : acc.1 < c) :
    (scanMaxAux p0 pl l i acc).1 < c := by
  induction l generalizing i acc with
  | nil => simpa [scanMaxAux] using hacc
  | cons q rest ih =>
      simp only [scanMaxAux]
      refine ih _ _ (fun x hx => hl x (List.mem_cons_of_mem q hx)) ?_
      split
      · exact hl q (List.mem_cons_self q rest)
      · exact hacc

/-- Full characterisation of the interior scan: either the accumulator is
returned unchanged (and then every scanned distance was at most the
accumulated maximum), or the scan returns the squared distance of the
first point attaining the maximum, together with its index. -/
theorem scanMaxAux_decomp (p0 pl : Q2) (l : List Q2) (i : ℕ) (acc : ℚ × ℕ) :
    (scanMaxAux p0 pl l i acc = acc ∧
        ∀ x ∈ l, distToSegmentSq x p0 pl ≤ acc.1) ∨
      ∃ A m B, l = A ++ m :: B ∧
        scanMaxAux p0 pl l i acc = (distToSegmentSq m p0 pl, i + A.length) ∧
        acc.1 < distToSegmentSq m p0 pl ∧
        (∀ x ∈ A, distToSegmentSq x p0 pl < distToSegmentSq m p0 pl) ∧
        (∀ x ∈ B, distToSegmentSq x p0 pl ≤ distToSegmentSq m p0 pl) := by
  induction l generalizing i acc with
  | nil => exact Or.inl ⟨rfl, by simp⟩
  | cons q rest ih =>
      by_cases hq : acc.1 < distToSegmentSq q p0 pl
      · have hstep : scanMaxAux p0 pl (q :: rest) i acc =
            scanMaxAux p0 pl rest (i + 1) (distToSegmentSq q p0 pl, i) := by
          simp [scanMaxAux, if_pos hq]
        rcases ih (i + 1) (distToSegmentSq q p0 pl, i) with ⟨heq, hall⟩ | ⟨A, m, B, hsplit, heq, hlt, hA, hB⟩
        · refine Or.inr ⟨[], q, rest, by simp, ?_, hq, by simp, by simpa using hall⟩
          simp [hstep, heq]
        · refine Or.inr ⟨q :: A, m, B, by simp [hsplit], ?_, lt_trans hq hlt, ?_, hB⟩
          · rw [hstep, heq]
            simp only [List.length_cons]
            have h1 : i + 1 + A.length = i + (A.length + 1) := by omega
            rw [h1]
          · intro x hx
            rcases List.mem_cons.mp hx with rfl | hx
            · exact hlt
            · exact hA x hx
      · have hstep : scanMaxAux p0 pl (q :: rest) i acc =
            scanMaxAux p0 pl rest (i + 1) acc := by
          simp [scanMaxAux, if_neg hq]
        rcases ih (i + 1) acc with ⟨heq, hall⟩ | ⟨A, m, B, hsplit, heq, hlt, hA, hB⟩
        · refine Or.inl ⟨by rw [hstep, heq], ?_⟩
          intro x hx
          rcases List.mem_cons.mp hx with rfl | hx
          · exact le_of_not_lt hq
          · exact hall x hx
        · refine Or.inr ⟨q :: A, m, B, by simp [hsplit], ?_, hlt, ?_, hB⟩
          · rw [hstep, heq]
            simp only [List.length_cons]
            have h1 : i + 1 + A.length = i + (A.length + 1) := by omega
            rw [h1]
          · intro x hx
            rcases List.mem_cons.mp hx with rfl | hx
            · exact lt_of_le_of_lt (le_of_not_lt hq) hlt
            · exact hA x hx

theorem interior_concat (p0 pl : Q2) (l : List Q2) :
    (p0 :: (l ++ [pl])).tail.dropLast = l := by
  simp

theorem getLastI_concat (p0 pl : Q2) (l : List Q2) :
    (p0 :: (l ++ [pl])).getLastI = pl := by
  rw [List.getLastI_eq_getLast?,
    show p0 :: (l ++ [pl]) = (p0 :: l) ++ [pl] by simp,
    List.getLast?_concat]

/-- Every list with at least two elements splits as head, interior, last. -/
theorem three_split (pts : List Q2) (h : 2 ≤ pts.length) :
    pts = pts.headI :: (pts.tail.dropLast ++ [pts.getLastI]) := by
  cases pts with
  | nil => simp at h
  | cons a t =>
      have ht : t ≠ [] := by
        intro hnil
        subst hnil
        simp at h
      have hl : (a :: t).getLastI = t.getLast ht := by
        conv_lhs => rw [show t = t.dropLast ++ [t.getLast ht] from
          (List.dropLast_concat_getLast ht).symm]
        exact getLastI_concat a (t.getLast ht) t.dropLast
      calc a :: t = a :: (t.dropLast ++ [t.getLast ht]) := by
            rw [List.dropLast_concat_getLast ht]
        _ = a :: (t.dropLast ++ [(a :: t).getLastI]) := by rw [hl]

theorem tail_dropLast_comm (l : List Q2) : l.dropLast.tail = l.tail.dropLast := by
  cases l with
  | nil => rfl
  | cons a t =>
      cases t with
      | nil => rfl
      | cons b u => simp

/-- Unfolding `simplifyPath` on short inputs (source line 32). -/
theorem simplifyPath_eq_short {pts : List Q2} {tolSq : ℚ} (h : pts.length ≤ 2) :
    simplifyPath pts tolSq = pts := by
  rw [simplifyPath, if_pos h]

/-- Unfolding `simplifyPath` in the collapse branch (source line 50). -/
theorem simplifyPath_eq_collapse {pts : List Q2} {tolSq : ℚ} (h2 : ¬ pts.length ≤ 2)
    (hg : ¬ (tolSq < (scanMax pts).1 ∧ 1 ≤ (scanMax pts).2 ∧
      (scanMax pts).2 + 1 < pts.length)) :
    simplifyPath pts tolSq = [pts.headI, pts.getLastI] := by
  rw [simplifyPath, if_neg h2, if_neg hg]

/-- Unfolding `simplifyPath` in the recursive branch (source lines 45-48). -/
theorem simplifyPath_eq_rec {pts : List Q2} {tolSq : ℚ} (h2 : ¬ pts.length ≤ 2)
    (hg : tolSq < (scanMax pts).1 ∧ 1 ≤ (scanMax pts).2 ∧
      (scanMax pts).2 + 1 < pts.length) :
    simplifyPath pts tolSq =
      (simplifyPath (pts.take ((scanMax pts).2 + 1)) tolSq).dropLast ++
        simplifyPath (pts.drop (scanMax pts).2) tolSq := by
  rw [simplifyPath, if_neg h2, if_pos hg]

/-- For a nonnegative (squared) tolerance the two extra guard conjuncts of
the embedded `simplifyPath` are implied by `tolerance < maxDist`: the
embedding recurses exactly when the source recurses. -/
theorem scanMax_guard_iff {pts : List Q2} {tolSq : ℚ} (ht : 0 ≤ tolSq)
    (h2 : 2 < pts.length) :
    (tolSq < (scanMax pts).1 ∧ 1 ≤ (scanMax pts).2 ∧
        (scanMax pts).2 + 1 < pts.length) ↔ tolSq < (scanMax pts).1 := by
  constructor
  · exact fun h => h.1
  · intro h
    refine ⟨h, ?_⟩
    have hlen : pts.tail.dropLast.length = pts.length - 2 := by
      simp only [List.length_dropLast, List.length_tail]
      omega
    rcases scanMaxAux_decomp pts.headI pts.getLastI pts.tail.dropLast 1 (0, 0) with
      ⟨heq, _⟩ | ⟨A, m, B, hsplit, heq, _, _, _⟩
    · exfalso
      have : (scanMax pts).1 = 0 := by rw [scanMax, heq]
      rw [this] at h
      exact absurd (lt_of_le_of_lt ht h) (lt_irrefl 0)
    · have h2' : (scanMax pts).2 = 1 + A.length := by rw [scanMax, heq]
      have hlen2 : pts.length - 2 = A.length + (B.length + 1) := by
        rw [← hlen, hsplit]
        simp
      omega

theorem dropLast_take_subset (t : List Q2) (j : ℕ) :
    ∀ x ∈ (t.take j).dropLast, x ∈ t.dropLast := by
  intro x hx
  rw [List.dropLast_eq_take, List.length_take, List.take_take] at hx
  rw [List.dropLast_eq_take]
  exact (List.take_sublist_take_left t (by omega)).subset hx

theorem dropLast_drop_subset (t : List Q2) (k : ℕ) :
    ∀ x ∈ (t.drop k).dropLast, x ∈ t.dropLast := by
  intro x hx
  by_cases hk : k < t.length
  · rw [List.dropLast_eq_take, List.length_drop, List.take_drop] at hx
    rw [List.dropLast_eq_take]
    have hmem := List.drop_subset k (t.take (k + (t.length - k - 1))) hx
    exact (List.take_sublist_take_left t (by omega)).subset hmem
  · rw [List.drop_eq_nil_of_le (by omega)] at hx
    simp at hx

theorem interior_take_subset (pts : List Q2) (k : ℕ) :
    ∀ x ∈ (pts.take k).tail.dropLast, x ∈ pts.tail.dropLast := by
  cases pts with
  | nil => simp
  | cons a t =>
      cases k with
      | zero => simp
      | succ j =>
          rw [List.take_succ_cons, List.tail_cons, List.tail_cons]
          exact dropLast_take_subset t j

theorem interior_drop_subset (pts : List Q2) (k : ℕ) :
    ∀ x ∈ (pts.drop k).tail.dropLast, x ∈ pts.tail.dropLast := by
  intro x hx
  rw [List.tail_drop] at hx
  have hdt : pts.drop (k + 1) = pts.tail.drop k := by
    cases pts with
    | nil => simp
    | cons a t => simp
  rw [hdt] at hx
  exact dropLast_drop_subset pts.tail k x hx

theorem getElem_mem_interior (pts : List Q2) (k : ℕ) (h1 : 1 ≤ k)
    (h2 : k + 1 < pts.length) :
    pts[k] ∈ pts.tail.dropLast := by
  refine List.mem_iff_getElem.mpr ⟨k - 1, ?_, ?_⟩
  · simp only [List.length_dropLast, List.length_tail]
    omega
  · rw [List.getElem_dropLast, List.getElem_tail]
    exact getElem_congr (show k - 1 + 1 = k by omega)

/-- Main structural facts about the simplifier, proved together by strong
induction on the length: the head and the last point survive, an input
with at least two points yields at least two points, the output is a
subsequence of the input, and every interior output point is an interior
input point. -/
theorem simplifyPath_main :
    ∀ (n : ℕ) (pts : List Q2) (tolSq : ℚ), pts.length ≤ n →
      (simplifyPath pts tolSq).head? = pts.head? ∧
      (simplifyPath pts tolSq).getLast? = pts.getLast? ∧
      (2 ≤ pts.length → 2 ≤ (simplifyPath pts tolSq).length) ∧
      (simplifyPath pts tolSq).Sublist pts ∧
      (∀ x ∈ (simplifyPath pts tolSq).tail.dropLast, x ∈ pts.tail.dropLast) := by
  intro n
  induction n with
  | zero =>
      intro pts tolSq hn
      have hnil : pts = [] := List.length_eq_zero.mp (Nat.le_zero.mp hn)
      subst hnil
      rw [simplifyPath_eq_short (by simp)]
      exact ⟨rfl, rfl, by simp, List.Sublist.refl _, by simp⟩
  | succ n ih =>
      intro pts tolSq hn
      by_cases h2 : pts.length ≤ 2
      · rw [simplifyPath_eq_short h2]
        exact ⟨rfl, rfl, fun h => h, List.Sublist.refl _, fun x hx => hx⟩
      by_cases hg : tolSq < (scanMax pts).1 ∧ 1 ≤ (scanMax pts).2 ∧
          (scanMax pts).2 + 1 < pts.length
      · -- recursive branch
        obtain ⟨hgM, hg1, hg2⟩ := hg
        rw [simplifyPath_eq_rec h2 ⟨hgM, hg1, hg2⟩]
        set k := (scanMax pts).2 with hk
        set L := simplifyPath (pts.take (k + 1)) tolSq with hL
        set R := simplifyPath (pts.drop k) tolSq with hR
        have hklen : k < pts.length := by omega
        have htlen : (pts.take (k + 1)).length = k + 1 := by
          rw [List.length_take]
          omega
        obtain ⟨hLhead, hLlast, hLlen, hLsub, hLint⟩ :=
          ih (pts.take (k + 1)) tolSq (by rw [htlen]; omega)
        obtain ⟨hRhead, hRlast, hRlen, hRsub, hRint⟩ :=
          ih (pts.drop k) tolSq (by rw [List.length_drop]; omega)
        rw [← hL] at hLhead hLlast hLsub
        rw [← hR] at hRhead hRlast hRsub
        have hLlen2 : 2 ≤ L.length := hLlen (by rw [htlen]; omega)
        have hRlen2' : 2 ≤ R.length := hRlen (by rw [List.length_drop]; omega)
        have hLdne : L.dropLast ≠ [] := by
          apply List.ne_nil_of_length_pos
          rw [List.length_dropLast]
          omega
        have hRne : R ≠ [] := List.ne_nil_of_length_pos (by omega)
        have hptsne : pts ≠ [] := List.ne_nil_of_length_pos (by omega)
        -- the split point
        have hRhead' : R.head? = some (pts[k]) := by
          rw [hRhead, List.head?_drop, List.getElem?_eq_getElem hklen]
        have hLlast' : L.getLast? = some (pts[k]) := by
          rw [hLlast, List.getLast?_take, if_neg (by omega)]
          simp only [Nat.add_sub_cancel]
          rw [List.getElem?_eq_getElem hklen]
          rfl
        have hLsplit : L.dropLast ++ [pts[k]] = L :=
          List.dropLast_append_getLast? _ (Option.mem_def.mpr hLlast')
        have hRsplit : R = (pts[k]) :: R.tail :=
          List.eq_cons_of_mem_head? (Option.mem_def.mpr hRhead')
        refine ⟨?_, ?_, ?_, ?_, ?_⟩
        · -- head?
          rw [List.head?_append, List.head?_dropLast, if_pos (by omega : 1 < L.length),
            hLhead, List.head?_take, if_neg (by omega)]
          rcases List.exists_mem_of_ne_nil pts hptsne with ⟨a, _⟩
          cases hhp : pts.head? with
          | none =>
              rw [List.head?_eq_none_iff] at hhp
              exact absurd hhp hptsne
          | some b => rfl
        · -- getLast?
          rw [List.getLast?_append, hRlast, List.getLast?_drop, if_neg (by omega)]
          rw [List.getLast?_eq_getLast pts hptsne]
          rfl
        · -- length
          intro _
          rw [List.length_append, List.length_dropLast]
          omega
        · -- sublist
          have hRt : R.tail.Sublist (pts.drop (k + 1)) := by
            have hds := hRsub
            rw [List.drop_eq_getElem_cons hklen] at hds
            rw [hRsplit] at hds
            exact List.cons_sublist_cons.mp hds
          have happ := hLsub.append hRt
          rw [List.take_append_drop] at happ
          have heq : L.dropLast ++ R = L ++ R.tail := by
            conv_lhs => rw [hRsplit]
            conv_rhs => rw [← hLsplit]
            simp
          rw [heq]
          exact happ
        · -- interior points
          intro x hx
          rw [List.tail_append_of_ne_nil hLdne,
            List.dropLast_append_of_ne_nil _ hRne, tail_dropLast_comm] at hx
          rcases List.mem_append.mp hx with hx | hx
          · exact interior_take_subset pts (k + 1) x (hLint x hx)
          · have hRd : R.dropLast = (pts[k]) :: R.tail.dropLast := by
              conv_lhs => rw [hRsplit]
              rw [List.dropLast_cons_of_ne_nil]
              intro hnil
              rw [hRsplit] at hRlen2'
              rw [hnil] at hRlen2'
              simp at hRlen2'
            rw [hRd] at hx
            rcases List.mem_cons.mp hx with rfl | hx
            · exact getElem_mem_interior pts k hg1 hg2
            · exact interior_drop_subset pts k x (hRint x hx)
      · -- collapse branch
        rw [simplifyPath_eq_collapse h2 hg]
        have h2' : 2 ≤ pts.length := by omega
        have hsplit := three_split pts h2'
        refine ⟨?_, ?_, ?_, ?_, ?_⟩
        · conv_rhs => rw [hsplit]
          rfl
        · conv_rhs => rw [hsplit]
          rw [show pts.headI :: (pts.tail.dropLast ++ [pts.getLastI]) =
            (pts.headI :: pts.tail.dropLast) ++ [pts.getLastI] by simp]
          rw [List.getLast?_concat]
          rfl
        · intro _
          simp
        · conv_rhs => rw [hsplit]
          refine List.Sublist.cons₂ _ ?_
          exact List.sublist_append_right _ _
        · intro x hx
          simp at hx

theorem simplifyPath_head? (pts : List Q2) (tolSq : ℚ) :
    (simplifyPath pts tolSq).head? = pts.head? :=
  (simplifyPath_main pts.length pts tolSq le_rfl).1

theorem simplifyPath_getLast? (pts : List Q2) (tolSq : ℚ) :
    (simplifyPath pts tolSq).getLast? = pts.getLast? :=
  (simplifyPath_main pts.length pts tolSq le_rfl).2.1

theorem simplifyPath_length_ge (pts : List Q2) (tolSq : ℚ) (h : 2 ≤ pts.length) :
    2 ≤ (simplifyPath pts tolSq).length :=
  (simplifyPath_main pts.length pts tolSq le_rfl).2.2.1 h

theorem simplifyPath_sublist (pts : List Q2) (tolSq : ℚ) :
    (simplifyPath pts tolSq).Sublist pts :=
  (simplifyPath_main pts.length pts tolSq le_rfl).2.2.2.1

theorem simplifyPath_interior_subset (pts : List Q2) (tolSq : ℚ) :
    ∀ x ∈ (simplifyPath pts tolSq).tail.dropLast, x ∈ pts.tail.dropLast :=
  (simplifyPath_main pts.length pts tolSq le_rfl).2.2.2.2

/-- Monotonicity engine: a larger (squared) tolerance never yields more
points.  The split index chosen by the scan does not depend on the
tolerance, so the two runs either recurse identically or the larger
tolerance collapses earlier. -/
theorem simplifyPath_length_mono_aux :
    ∀ (n : ℕ) (pts : List Q2) (t1 t2 : ℚ), pts.length ≤ n → t1 ≤ t2 →
      (simplifyPath pts t2).length ≤ (simplifyPath pts t1).length := by
  intro n
  induction n with
  | zero =>
      intro pts t1 t2 hn _
      have hnil : pts = [] := List.length_eq_zero.mp (Nat.le_zero.mp hn)
      subst hnil
      rw [simplifyPath_eq_short (by simp), simplifyPath_eq_short (by simp)]
  | succ n ih =>
      intro pts t1 t2 hn h12
      by_cases h2 : pts.length ≤ 2
      · rw [simplifyPath_eq_short h2, simplifyPath_eq_short h2]
      by_cases hb : 1 ≤ (scanMax pts).2 ∧ (scanMax pts).2 + 1 < pts.length
      · by_cases hM2 : t2 < (scanMax pts).1
        · have hM1 : t1 < (scanMax pts).1 := lt_of_le_of_lt h12 hM2
          rw [simplifyPath_eq_rec h2 ⟨hM1, hb.1, hb.2⟩,
            simplifyPath_eq_rec h2 ⟨hM2, hb.1, hb.2⟩]
          have hmono1 := ih (pts.take ((scanMax pts).2 + 1)) t1 t2
            (by rw [List.length_take]; omega) h12
          have hmono2 := ih (pts.drop (scanMax pts).2) t1 t2
            (by rw [List.length_drop]; omega) h12
          have hge : 2 ≤ (simplifyPath (pts.take ((scanMax pts).2 + 1)) t2).length :=
            simplifyPath_length_ge _ _ (by rw [List.length_take]; omega)
          rw [List.length_append, List.length_append, List.length_dropLast,
            List.length_dropLast]
          omega
        · by_cases hM1 : t1 < (scanMax pts).1
          · rw [simplifyPath_eq_rec h2 ⟨hM1, hb.1, hb.2⟩,
              simplifyPath_eq_collapse h2 (fun h => hM2 h.1)]
            have hge1 : 2 ≤ (simplifyPath (pts.take ((scanMax pts).2 + 1)) t1).length :=
              simplifyPath_length_ge _ _ (by rw [List.length_take]; omega)
            have hge2 : 2 ≤ (simplifyPath (pts.drop (scanMax pts).2) t1).length :=
              simplifyPath_length_ge _ _ (by rw [List.length_drop]; omega)
            rw [List.length_append, List.length_dropLast]
            simp only [List.length_cons, List.length_nil]
            omega
          · rw [simplifyPath_eq_collapse h2 (fun h => hM1 h.1),
              simplifyPath_eq_collapse h2 (fun h => hM2 h.1)]
      · rw [simplifyPath_eq_collapse h2 (fun h => hb ⟨h.2.1, h.2.2⟩),
          simplifyPath_eq_collapse h2 (fun h => hb ⟨h.2.1, h.2.2⟩)]

theorem headI_eq_of_head? {l : List Q2} {a : Q2} (h : l.head? = some a) :
    l.headI = a := by
  cases l with
  | nil => simp at h
  | cons x t =>
      simp only [List.head?_cons, Option.some.injEq] at h
      simp [h]

theorem getLastI_eq_of_getLast? {l : List Q2} {a : Q2} (h : l.getLast? = some a) :
    l.getLastI = a := by
  rw [List.getLastI_eq_getLast?, h]

theorem take_shape (p0 m : Q2) (A X : List Q2) :
    (p0 :: (A ++ m :: X)).take (A.length + 2) = p0 :: (A ++ [m]) := by
  rw [show A.length + 2 = (A.length + 1) + 1 from rfl, List.take_succ_cons,
    List.take_append 1]
  simp

theorem drop_shape (p0 : Q2) (A X : List Q2) :
    (p0 :: (A ++ X)).drop (A.length + 1) = X := by
  rw [List.drop_succ_cons, show A.length = A.length + 0 from rfl,
    List.drop_append 0]
  rfl

/-- Computing the scan on a list whose interior splits into a strict
prefix, a maximiser, and a dominated suffix. -/
theorem scanMax_eq_of_decomp (p0 pl m : Q2) (A B : List Q2)
    (hA : ∀ x ∈ A, distToSegmentSq x p0 pl < distToSegmentSq m p0 pl)
    (hB : ∀ x ∈ B, distToSegmentSq x p0 pl ≤ distToSegmentSq m p0 pl)
    (h0 : 0 < distToSegmentSq m p0 pl) :
    scanMax (p0 :: ((A ++ m :: B) ++ [pl])) =
      (distToSegmentSq m p0 pl, A.length + 1) := by
  rw [scanMax, List.headI_cons, getLastI_concat, interior_concat,
    scanMaxAux_append]
  have hAlt : (scanMaxAux p0 pl A 1 (0, 0)).1 < distToSegmentSq m p0 pl :=
    scanMaxAux_lt p0 pl A 1 (0, 0) _ hA (by simpa using h0)
  rw [show scanMaxAux p0 pl (m :: B) (1 + A.length) (scanMaxAux p0 pl A 1 (0, 0)) =
      scanMaxAux p0 pl B (1 + A.length + 1)
        (distToSegmentSq m p0 pl, 1 + A.length) by
    simp only [scanMaxAux]
    rw [if_pos hAlt]]
  rw [scanMaxAux_stable p0 pl B _ _ (by simpa using hB)]
  rw [Nat.add_comm 1 A.length]

/-- Idempotence engine: re-running the simplifier on its own output with
the same nonnegative squared tolerance changes nothing.  The chord of the
output equals the chord of the input, the split point survives into the
output, interior output points left of the split keep strictly smaller
distances and those right of it keep dominated ones, so the second run
finds the same split and recurses on exactly the halves produced by the
first run. -/
theorem simplifyPath_idem_aux :
    ∀ (n : ℕ) (pts : List Q2) (tolSq : ℚ), pts.length ≤ n → 0 ≤ tolSq →
      simplifyPath (simplifyPath pts tolSq) tolSq = simplifyPath pts tolSq := by
  intro n
  induction n with
  | zero =>
      intro pts t hn _
      have hnil : pts = [] := List.length_eq_zero.mp (Nat.le_zero.mp hn)
      subst hnil
      rw [simplifyPath_eq_short (show ([] : List Q2).length ≤ 2 by decide)]
      exact simplifyPath_eq_short (by decide)
  | succ n ih =>
      intro pts t hn ht
      by_cases h2 : pts.length ≤ 2
      · have hs : simplifyPath pts t = pts := simplifyPath_eq_short h2
        rw [hs]
        exact hs
      by_cases hg : t < (scanMax pts).1 ∧ 1 ≤ (scanMax pts).2 ∧
          (scanMax pts).2 + 1 < pts.length
      case neg =>
        have hc := simplifyPath_eq_collapse h2 hg
        rw [hc]
        exact simplifyPath_eq_short (by simp)
      case pos =>
        obtain ⟨hgM, hg1, hg2⟩ := hg
        rcases scanMaxAux_decomp pts.headI pts.getLastI pts.tail.dropLast 1 (0, 0) with
          ⟨heq, _⟩ | ⟨A, m, B, hsplit, heq, _, hA, hB⟩
        · exfalso
          have h0 : (scanMax pts).1 = 0 := by rw [scanMax, heq]
          rw [h0] at hgM
          exact absurd (lt_of_le_of_lt ht hgM) (lt_irrefl 0)
        have hsm : scanMax pts =
            (distToSegmentSq m pts.headI pts.getLastI, A.length + 1) := by
          rw [scanMax, heq, Nat.add_comm 1 A.length]
        have hM0 : 0 < distToSegmentSq m pts.headI pts.getLastI := by
          have h4 := hgM
          rw [hsm] at h4
          exact lt_of_le_of_lt ht h4
        have hMgt : t < distToSegmentSq m pts.headI pts.getLastI := by
          have h4 := hgM
          rw [hsm] at h4
          exact h4
        have hpts : pts = pts.headI :: ((A ++ m :: B) ++ [pts.getLastI]) := by
          conv_lhs => rw [three_split pts (by omega)]
          rw [hsplit]
        have hlen3 : pts.length = A.length + B.length + 3 := by
          conv_lhs => rw [hpts]
          simp only [List.length_cons, List.length_append, List.length_nil]
          omega
        have htk : pts.take ((scanMax pts).2 + 1) = pts.headI :: (A ++ [m]) := by
          rw [hsm]
          conv_lhs => rw [hpts]
          rw [show (A ++ m :: B) ++ [pts.getLastI] =
            A ++ m :: (B ++ [pts.getLastI]) by simp]
          exact take_shape _ _ _ _
        have hdr : pts.drop (scanMax pts).2 = m :: (B ++ [pts.getLastI]) := by
          rw [hsm]
          conv_lhs => rw [hpts]
          rw [show (A ++ m :: B) ++ [pts.getLastI] =
            A ++ (m :: (B ++ [pts.getLastI])) by simp]
          exact drop_shape _ _ _
        have hrec := simplifyPath_eq_rec h2 ⟨hgM, hg1, hg2⟩
        rw [htk, hdr] at hrec
        set L := simplifyPath (pts.headI :: (A ++ [m])) t with hLdef
        set R := simplifyPath (m :: (B ++ [pts.getLastI])) t with hRdef
        have hLlen : 2 ≤ L.length := by
          rw [hLdef]
          exact simplifyPath_length_ge _ _
            (by simp only [List.length_cons, List.length_append, List.length_nil]; omega)
        have hRlen : 2 ≤ R.length := by
          rw [hRdef]
          exact simplifyPath_length_ge _ _
            (by simp only [List.length_cons, List.length_append, List.length_nil]; omega)
        have hLhead : L.head? = some pts.headI := by
          rw [hLdef, simplifyPath_head?]
          rfl
        have hLlast : L.getLast? = some m := by
          rw [hLdef, simplifyPath_getLast?,
            show pts.headI :: (A ++ [m]) = (pts.headI :: A) ++ [m] by simp,
            List.getLast?_concat]
        have hRhead : R.head? = some m := by
          rw [hRdef, simplifyPath_head?]
          rfl
        have hRlast : R.getLast? = some pts.getLastI := by
          rw [hRdef, simplifyPath_getLast?,
            show m :: (B ++ [pts.getLastI]) = (m :: B) ++ [pts.getLastI] by simp,
            List.getLast?_concat]
        have hLint : ∀ x ∈ L.tail.dropLast, x ∈ A := by
          intro x hx
          rw [hLdef] at hx
          have h3 := simplifyPath_interior_subset _ _ x hx
          simpa using h3
        have hRint : ∀ x ∈ R.tail.dropLast, x ∈ B := by
          intro x hx
          rw [hRdef] at hx
          have h3 := simplifyPath_interior_subset _ _ x hx
          simpa using h3
        have hLeq : L = pts.headI :: (L.tail.dropLast ++ [m]) := by
          have h3 := three_split L hLlen
          rwa [headI_eq_of_head? hLhead, getLastI_eq_of_getLast? hLlast] at h3
        have hReq : R = m :: (R.tail.dropLast ++ [pts.getLastI]) := by
          have h3 := three_split R hRlen
          rwa [headI_eq_of_head? hRhead, getLastI_eq_of_getLast? hRlast] at h3
        have hres : L.dropLast ++ R =
            pts.headI :: ((L.tail.dropLast ++ m :: R.tail.dropLast) ++ [pts.getLastI]) := by
          have hLd : L.dropLast = pts.headI :: L.tail.dropLast := by
            conv_lhs => rw [hLeq]
            rw [show pts.headI :: (L.tail.dropLast ++ [m]) =
              (pts.headI :: L.tail.dropLast) ++ [m] by simp, List.dropLast_concat]
          rw [hLd]
          conv_lhs => rw [hReq]
          simp
        have hsm2 : scanMax (L.dropLast ++ R) =
            (distToSegmentSq m pts.headI pts.getLastI, L.tail.dropLast.length + 1) := by
          rw [hres]
          exact scanMax_eq_of_decomp _ _ _ _ _
            (fun x hx => hA x (hLint x hx))
            (fun x hx => hB x (hRint x hx))
            hM0
        have hreslen : (L.dropLast ++ R).length =
            L.tail.dropLast.length + R.tail.dropLast.length + 3 := by
          rw [hres]
          simp only [List.length_cons, List.length_append, List.length_nil]
          omega
        have h2b : ¬ (L.dropLast ++ R).length ≤ 2 := by
          rw [hreslen]
          omega
        have hg2b : t < (scanMax (L.dropLast ++ R)).1 ∧
            1 ≤ (scanMax (L.dropLast ++ R)).2 ∧
            (scanMax (L.dropLast ++ R)).2 + 1 < (L.dropLast ++ R).length := by
          rw [hsm2, hreslen]
          exact ⟨hMgt, by omega, by omega⟩
        have htk2 : (L.dropLast ++ R).take ((scanMax (L.dropLast ++ R)).2 + 1) = L := by
          rw [hsm2]
          conv_lhs => rw [hres]
          rw [show (L.tail.dropLast ++ m :: R.tail.dropLast) ++ [pts.getLastI] =
            L.tail.dropLast ++ m :: (R.tail.dropLast ++ [pts.getLastI]) by simp]
          exact (take_shape _ _ _ _).trans hLeq.symm
        have hdr2 : (L.dropLast ++ R).drop (scanMax (L.dropLast ++ R)).2 = R := by
          rw [hsm2]
          conv_lhs => rw [hres]
          rw [show (L.tail.dropLast ++ m :: R.tail.dropLast) ++ [pts.getLastI] =
            L.tail.dropLast ++ (m :: (R.tail.dropLast ++ [pts.getLastI])) by simp]
          exact (drop_shape _ _ _).trans hReq.symm
        have hidemL : simplifyPath L t = L := by
          rw [hLdef]
          exact ih (pts.headI :: (A ++ [m])) t
            (by simp only [List.length_cons, List.length_append, List.length_nil]; omega) ht
        have hidemR : simplifyPath R t = R := by
          rw [hRdef]
          exact ih (m :: (B ++ [pts.getLastI])) t
            (by simp only [List.length_cons, List.length_append, List.length_nil]; omega) ht
        rw [hrec, simplifyPath_eq_rec h2b hg2b, htk2, hdr2, hidemL, hidemR]

theorem simplifyPath_zero_dpzero_aux :
    ∀ (n : ℕ) (pts : List Q2), pts.length ≤ n → DPZero pts (simplifyPath pts 0) := by
  intro n
  induction n with
  | zero =>
      intro pts hn
      have hnil : pts = [] := List.length_eq_zero.mp (Nat.le_zero.mp hn)
      subst hnil
      rw [simplifyPath_eq_short (show ([] : List Q2).length ≤ 2 by decide)]
      exact DPZero.short [] (by decide)
  | succ n ih =>
      intro pts hn
      by_cases h2 : pts.length ≤ 2
      · rw [simplifyPath_eq_short h2]
        exact DPZero.short pts h2
      by_cases hg : (0 : ℚ) < (scanMax pts).1 ∧ 1 ≤ (scanMax pts).2 ∧
          (scanMax pts).2 + 1 < pts.length
      case pos =>
        obtain ⟨hgM, hg1, hg2⟩ := hg
        rw [simplifyPath_eq_rec h2 ⟨hgM, hg1, hg2⟩]
        have hklen : (scanMax pts).2 < pts.length := by omega
        have hl : (pts.take ((scanMax pts).2 + 1)).getLast? =
            (pts.drop (scanMax pts).2).head? := by
          rw [List.getLast?_take, List.head?_drop, if_neg (by omega)]
          simp only [Nat.add_sub_cancel]
          rw [List.getElem?_eq_getElem hklen]
          rfl
        have hglue := DPZero.glue (pts.take ((scanMax pts).2 + 1))
          (pts.drop (scanMax pts).2) _ _
          (ih _ (by rw [List.length_take]; omega))
          (ih _ (by rw [List.length_drop]; omega)) hl
        rw [List.tail_drop, List.take_append_drop] at hglue
        exact hglue
      case neg =>
        rw [simplifyPath_eq_collapse h2 hg]
        have hng : ¬ (0 : ℚ) < (scanMax pts).1 := by
          intro hpos
          exact hg ((scanMax_guard_iff le_rfl (by omega)).mpr hpos)
        have hmax : ∀ x ∈ pts.tail.dropLast,
            distToSegmentSq x pts.headI pts.getLastI = 0 := by
          intro x hx
          have hle : distToSegmentSq x pts.headI pts.getLastI ≤ (scanMax pts).1 :=
            (scanMaxAux_le pts.headI pts.getLastI pts.tail.dropLast 1 (0, 0)).2 x hx
          exact le_antisymm (le_trans hle (le_of_not_lt hng))
            (distToSegmentSq_nonneg _ _ _)
        have hc := DPZero.collapse pts.headI pts.getLastI pts.tail.dropLast hmax
        rwa [← three_split pts (by omega)] at hc

theorem cross2_swap (a b : Q2) : cross2 b a = - cross2 a b := by
  unfold cross2
  ring

theorem getLastI_cons_cons (x y : Q2) (u : List Q2) :
    (x :: y :: u).getLastI = (y :: u).getLastI := by
  rw [List.getLastI_eq_getLast?, List.getLastI_eq_getLast?,
    List.getLast?_cons_cons]

theorem edgeSum_concat (l : List Q2) (hne : l ≠ []) (a : Q2) :
    edgeSum (l ++ [a]) = edgeSum l + cross2 l.getLastI a := by
  induction l with
  | nil => cases hne rfl
  | cons x t ih =>
      cases t with
      | nil =>
          simp only [List.cons_append, List.nil_append]
          show cross2 x a + edgeSum [a] = edgeSum [x] + cross2 [x].getLastI a
          show cross2 x a + 0 = 0 + cross2 x a
          ring
      | cons y u =>
          rw [show (x :: y :: u) ++ [a] = x :: ((y :: u) ++ [a]) by simp]
          rw [show edgeSum (x :: ((y :: u) ++ [a])) =
            cross2 x y + edgeSum ((y :: u) ++ [a]) from rfl]
          rw [ih (by simp)]
          rw [getLastI_cons_cons]
          rw [show edgeSum (x :: y :: u) = cross2 x y + edgeSum (y :: u) from rfl]
          ring

theorem headI_reverse (l : List Q2) : l.reverse.headI = l.getLastI := by
  cases l with
  | nil => rfl
  | cons a t =>
      have h2 : (a :: t).getLast? = some ((a :: t).getLast (by simp)) :=
        List.getLast?_eq_getLast _ _
      have h1 : (a :: t).reverse.head? = some ((a :: t).getLast (by simp)) :=
        (List.head?_reverse _).trans h2
      rw [headI_eq_of_head? h1, getLastI_eq_of_getLast? h2]

theorem getLastI_reverse (l : List Q2) : l.reverse.getLastI = l.headI := by
  cases l with
  | nil => rfl
  | cons a t =>
      have h1 : (a :: t).reverse.getLast? = some a :=
        (List.getLast?_reverse _).trans rfl
      rw [getLastI_eq_of_getLast? h1]
      rfl

theorem edgeSum_reverse (l : List Q2) : edgeSum l.reverse = - edgeSum l := by
  induction l with
  | nil => simp [edgeSum]
  | cons x t ih =>
      cases t with
      | nil => simp [edgeSum]
      | cons y u =>
          rw [show (x :: y :: u).reverse = (y :: u).reverse ++ [x] by simp]
          rw [edgeSum_concat _ (by simp) x, ih]
          rw [show ((y :: u).reverse).getLastI = y from by
            rw [getLastI_reverse]
            rfl]
          rw [show edgeSum (x :: y :: u) = cross2 x y + edgeSum (y :: u) from rfl]
          rw [cross2_swap x y]
          ring

/-- Reversing a ring flips the sign of its signed area, so the in-place
`reverse()` calls of Step C flip the winding. -/
theorem signedArea_reverse (pts : List Q2) :
    signedArea pts.reverse = - signedArea pts := by
  unfold signedArea
  rw [edgeSum_reverse, headI_reverse, getLastI_reverse, cross2_swap pts.getLastI]
  ring

/-- Characterisation of the parent scan.  (A) the result is the initial
candidate or the `(index, area)` pair of a scanned contour containing the
probe point; (B) whenever some scanned contour contains the probe, the
scan returns a candidate whose area is at most that contour's area;
(C) the scan never returns a candidate with a larger area than an initial
candidate. -/
theorem findParentAux_spec (pt : Q2) :
    ∀ (l : List Classified) (i : ℕ) (best : Option (ℕ × ℚ)),
      ((findParentAux pt l i best = best) ∨
        (∃ kk, kk < l.length ∧
          findParentAux pt l i best = some (i + kk, (l.getD kk default).area) ∧
          isPointInPolygon pt (l.getD kk default).points = true)) ∧
      (∀ kk, kk < l.length →
          isPointInPolygon pt (l.getD kk default).points = true →
          ∃ j a, findParentAux pt l i best = some (j, a) ∧
            a ≤ (l.getD kk default).area) ∧
      (∀ b, best = some b →
          ∃ j a, findParentAux pt l i best = some (j, a) ∧ a ≤ b.2) := by
  intro l
  induction l with
  | nil =>
      intro i best
      refine ⟨Or.inl rfl, ?_, ?_⟩
      · intro kk hk
        exact absurd hk (by simp)
      · intro b hb
        exact ⟨b.1, b.2, by rw [show findParentAux pt [] i best = best from rfl, hb],
          le_refl b.2⟩
  | cons p rest ih =>
      intro i best
      cases best with
      | none =>
          have hunf : findParentAux pt (p :: rest) i none =
              findParentAux pt rest (i + 1)
                (if (true && isPointInPolygon pt p.points) then some (i, p.area)
                 else none) := rfl
          by_cases hc : isPointInPolygon pt p.points = true
          · rw [show (true && isPointInPolygon pt p.points) = true by simp [hc]] at hunf
            rw [if_pos rfl] at hunf
            obtain ⟨ihA, ihB, ihC⟩ := ih (i + 1) (some (i, p.area))
            refine ⟨?_, ?_, ?_⟩
            · rcases ihA with hr | ⟨kk, hk, hr, hcc⟩
              · refine Or.inr ⟨0, by simp, ?_, by simpa using hc⟩
                rw [hunf, hr]
                simp
              · refine Or.inr ⟨kk + 1, by simp; omega, ?_, by simpa using hcc⟩
                rw [hunf, hr]
                simp only [List.getD_cons_succ]
                rw [show i + (kk + 1) = i + 1 + kk by omega]
            · intro kk hk hcc
              cases kk with
              | zero =>
                  obtain ⟨j, a, hr, ha⟩ := ihC (i, p.area) rfl
                  exact ⟨j, a, by rw [hunf, hr], by simpa using ha⟩
              | succ kk =>
                  obtain ⟨j, a, hr, ha⟩ := ihB kk (by simpa using hk) (by simpa using hcc)
                  exact ⟨j, a, by rw [hunf, hr], by simpa using ha⟩
            · intro b hb
              exact absurd hb (by simp)
          · rw [show (true && isPointInPolygon pt p.points) = false by
              simp [Bool.eq_false_iff.mpr hc]] at hunf
            rw [if_neg (by simp)] at hunf
            obtain ⟨ihA, ihB, ihC⟩ := ih (i + 1) none
            refine ⟨?_, ?_, ?_⟩
            · rcases ihA with hr | ⟨kk, hk, hr, hcc⟩
              · exact Or.inl (by rw [hunf, hr])
              · refine Or.inr ⟨kk + 1, by simp; omega, ?_, by simpa using hcc⟩
                rw [hunf, hr]
                simp only [List.getD_cons_succ]
                rw [show i + (kk + 1) = i + 1 + kk by omega]
            · intro kk hk hcc
              cases kk with
              | zero => exact absurd (by simpa using hcc) hc
              | succ kk =>
                  obtain ⟨j, a, hr, ha⟩ := ihB kk (by simpa using hk) (by simpa using hcc)
                  exact ⟨j, a, by rw [hunf, hr], by simpa using ha⟩
            · intro b hb
              exact absurd hb (by simp)
      | some b =>
          have hunf : findParentAux pt (p :: rest) i (some b) =
              findParentAux pt rest (i + 1)
                (if (decide (p.area < b.2) && isPointInPolygon pt p.points)
                 then some (i, p.area) else some b) := rfl
          by_cases hok : (decide (p.area < b.2) && isPointInPolygon pt p.points) = true
          · have hok2 := hok
            simp only [Bool.and_eq_true, decide_eq_true_eq] at hok2
            obtain ⟨harea, hc⟩ := hok2
            rw [if_pos hok] at hunf
            obtain ⟨ihA, ihB, ihC⟩ := ih (i + 1) (some (i, p.area))
            refine ⟨?_, ?_, ?_⟩
            · rcases ihA with hr | ⟨kk, hk, hr, hcc⟩
              · refine Or.inr ⟨0, by simp, ?_, by simpa using hc⟩
                rw [hunf, hr]
                simp
              · refine Or.inr ⟨kk + 1, by simp; omega, ?_, by simpa using hcc⟩
                rw [hunf, hr]
                simp only [List.getD_cons_succ]
                rw [show i + (kk + 1) = i + 1 + kk by omega]
            · intro kk hk hcc
              cases kk with
              | zero =>
                  obtain ⟨j, a, hr, ha2⟩ := ihC (i, p.area) rfl
                  exact ⟨j, a, by rw [hunf, hr], by simpa using ha2⟩
              | succ kk =>
                  obtain ⟨j, a, hr, ha2⟩ := ihB kk (by simpa using hk) (by simpa using hcc)
                  exact ⟨j, a, by rw [hunf, hr], by simpa using ha2⟩
            · intro b2 hb2
              obtain rfl : b = b2 := by injection hb2
              obtain ⟨j, a, hr, ha2⟩ := ihC (i, p.area) rfl
              exact ⟨j, a, by rw [hunf, hr], le_of_lt (lt_of_le_of_lt (by simpa using ha2) harea)⟩
          · rw [if_neg (by simp [hok])] at hunf
            obtain ⟨ihA, ihB, ihC⟩ := ih (i + 1) (some b)
            refine ⟨?_, ?_, ?_⟩
            · rcases ihA with hr | ⟨kk, hk, hr, hcc⟩
              · exact Or.inl (by rw [hunf, hr])
              · refine Or.inr ⟨kk + 1, by simp; omega, ?_, by simpa using hcc⟩
                rw [hunf, hr]
                simp only [List.getD_cons_succ]
                rw [show i + (kk + 1) = i + 1 + kk by omega]
            · intro kk hk hcc
              cases kk with
              | zero =>
                  have hcp : isPointInPolygon pt p.points = true := by simpa using hcc
                  have hna : ¬ p.area < b.2 := by
                    intro hlt
                    exact hok (by simp [hcp, decide_eq_true hlt])
                  obtain ⟨j, a, hr, ha2⟩ := ihC b rfl
                  exact ⟨j, a, by rw [hunf, hr],
                    by simpa using le_trans ha2 (le_of_not_lt hna)⟩
              | succ kk =>
                  obtain ⟨j, a, hr, ha2⟩ := ihB kk (by simpa using hk) (by simpa using hcc)
                  exact ⟨j, a, by rw [hunf, hr], by simpa using ha2⟩
            · intro b2 hb2
              obtain rfl : b = b2 := by injection hb2
              obtain ⟨j, a, hr, ha2⟩ := ihC b rfl
              exact ⟨j, a, by rw [hunf, hr], ha2⟩

theorem getD_append_left (l l2 : List Classified) (j : ℕ) (h : j < l.length) :
    (l ++ l2).getD j default = l.getD j default := by
  rw [List.getD_eq_getElem?_getD, List.getD_eq_getElem?_getD,
    List.getElem?_append_left h]

theorem getD_concat_length (l : List Classified) (E : Classified) :
    (l ++ [E]).getD l.length default = E := by
  rw [List.getD_eq_getElem?_getD, List.getElem?_concat_length]
  rfl

/-- Unpacking one classification step: it appends exactly one entry whose
fields are the contour's points and area, the scanned parent index, the
derived depth, and the parity flag. -/
theorem classifyStep_eq (done : List Classified) (c : ContourData) :
    ∃ E : Classified, classifyStep done c = done ++ [E] ∧
      E.points = c.points ∧ E.area = c.area ∧
      E.parent = (findParentAux c.points.headI done 0 none).map Prod.fst ∧
      E.depth = (match findParentAux c.points.headI done 0 none with
        | some jp => (done.getD jp.1 default).depth + 1
        | none => 0) ∧
      E.isHole = decide (E.depth % 2 ≠ 0) :=
  ⟨_, rfl, rfl, rfl, rfl, rfl, rfl⟩

theorem classifyStep_length (done : List Classified) (c : ContourData) :
    (classifyStep done c).length = done.length + 1 := by
  obtain ⟨E, hE, _⟩ := classifyStep_eq done c
  rw [hE]
  simp

theorem classify_foldl_length :
    ∀ (l : List ContourData) (done : List Classified),
      (l.foldl classifyStep done).length = done.length + l.length := by
  intro l
  induction l with
  | nil => intro done; simp
  | cons c rest ih =>
      intro done
      rw [List.foldl_cons, ih, classifyStep_length]
      simp only [List.length_cons]
      omega

theorem classify_foldl_prefix :
    ∀ (l : List ContourData) (done : List Classified) (j : ℕ), j < done.length →
      (l.foldl classifyStep done).getD j default = done.getD j default := by
  intro l
  induction l with
  | nil => intro done j _; rfl
  | cons c rest ih =>
      intro done j hj
      rw [List.foldl_cons]
      rw [ih (classifyStep done c) j (by rw [classifyStep_length]; omega)]
      obtain ⟨E, hE, _⟩ := classifyStep_eq done c
      rw [hE, getD_append_left _ _ _ hj]

theorem classify_foldl_entry :
    ∀ (l : List ContourData) (done : List Classified) (kk : ℕ), kk < l.length →
      ((l.foldl classifyStep done).getD (done.length + kk) default).points =
        (l.getD kk ⟨[], 0⟩).points ∧
      ((l.foldl classifyStep done).getD (done.length + kk) default).area =
        (l.getD kk ⟨[], 0⟩).area := by
  intro l
  induction l with
  | nil =>
      intro done kk hk
      exact absurd hk (by simp)
  | cons c rest ih =>
      intro done kk hk
      rw [List.foldl_cons]
      cases kk with
      | zero =>
          rw [Nat.add_zero,
            classify_foldl_prefix rest (classifyStep done c) done.length
              (by rw [classifyStep_length]; omega)]
          obtain ⟨E, hE, hpts, harea, _⟩ := classifyStep_eq done c
          rw [hE, getD_concat_length]
          exact ⟨hpts, harea⟩
      | succ kk =>
          have hres := ih (classifyStep done c) kk (by simp at hk; omega)
          rw [classifyStep_length] at hres
          rw [show done.length + (kk + 1) = done.length + 1 + kk by omega]
          simpa using hres

theorem entrySpec_append (done : List Classified) (x : Classified) (i : ℕ)
    (hi : i < done.length) (h : EntrySpec done i) : EntrySpec (done ++ [x]) i := by
  have hg : ∀ idx, idx < done.length →
      (done ++ [x]).getD idx default = done.getD idx default :=
    fun idx hidx => getD_append_left done [x] idx hidx
  obtain ⟨h1, h2, h3, h4⟩ := h
  unfold EntrySpec
  rw [hg i hi]
  refine ⟨?_, ?_, h3, h4⟩
  · intro hp kk hkk
    rw [hg kk (by omega)]
    exact h1 hp kk hkk
  · intro j hp
    obtain ⟨hj, hcont, hmin, hdep⟩ := h2 j hp
    refine ⟨hj, ?_, ?_, ?_⟩
    · rw [hg j (by omega)]
      exact hcont
    · intro kk hkk hc
      rw [hg kk (by omega)] at hc
      rw [hg j (by omega), hg kk (by omega)]
      exact hmin kk hkk hc
    · rw [hg j (by omega)]
      exact hdep

theorem classifyStep_new_spec (done : List Classified) (c : ContourData) :
    EntrySpec (classifyStep done c) done.length := by
  obtain ⟨E, hE, hpts, harea, hpar, hdep, hhole⟩ := classifyStep_eq done c
  have hlen : (classifyStep done c).getD done.length default = E := by
    rw [hE]
    exact getD_concat_length done E
  obtain ⟨sA, sB, sC⟩ := findParentAux_spec c.points.headI done 0 none
  unfold EntrySpec
  rw [hlen, hpts, hpar]
  refine ⟨?_, ?_, ?_, ?_⟩
  · -- no parent: no earlier contour contains the probe
    intro hp kk hkk
    have hnone : findParentAux c.points.headI done 0 none = none :=
      Option.map_eq_none'.mp hp
    rw [hE, getD_append_left _ _ kk hkk]
    cases hccb : isPointInPolygon c.points.headI (done.getD kk default).points with
    | false => rfl
    | true =>
        obtain ⟨j, a, hr, _⟩ := sB kk hkk hccb
        rw [hnone] at hr
        exact Option.noConfusion hr
  · -- some parent: containment, minimality, depth
    intro j hp
    obtain ⟨⟨j2, a⟩, hr, hj2⟩ := Option.map_eq_some'.mp hp
    obtain rfl : j = j2 := hj2.symm
    rcases sA with hr0 | ⟨kk, hk, hr2, hcont⟩
    · rw [hr] at hr0
      exact Option.noConfusion hr0
    · rw [hr, Option.some.injEq, Prod.mk.injEq] at hr2
      obtain ⟨hjk, hak⟩ := hr2
      have hjk2 : j = kk := by omega
      subst hjk2
      refine ⟨hk, ?_, ?_, ?_⟩
      · rw [hE, getD_append_left _ _ j hk]
        exact hcont
      · intro kk2 hkk2 hc2
        rw [hE, getD_append_left _ _ kk2 hkk2] at hc2
        rw [hE, getD_append_left _ _ j hk, getD_append_left _ _ kk2 hkk2]
        obtain ⟨j3, a3, hr3, ha3⟩ := sB kk2 hkk2 hc2
        rw [hr, Option.some.injEq, Prod.mk.injEq] at hr3
        obtain ⟨hj3, ha3eq⟩ := hr3
        rw [← hak, ha3eq]
        exact ha3
      · rw [hE, getD_append_left _ _ j hk]
        rw [hr] at hdep
        exact hdep
  · -- no parent: depth zero
    intro hp
    have hnone : findParentAux c.points.headI done 0 none = none :=
      Option.map_eq_none'.mp hp
    rw [hnone] at hdep
    exact hdep
  · -- hole flag is depth parity
    rw [hhole]
    constructor
    · intro h
      have := of_decide_eq_true h
      omega
    · intro h
      exact decide_eq_true (by omega)

/-- Every entry produced by the hierarchy pass satisfies its
specification. -/
theorem classify_spec :
    ∀ (l : List ContourData) (done : List Classified),
      (∀ i, i < done.length → EntrySpec done i) →
      ∀ i, i < (l.foldl classifyStep done).length →
        EntrySpec (l.foldl classifyStep done) i := by
  intro l
  induction l with
  | nil =>
      intro done h i hi
      exact h i hi
  | cons c rest ih =>
      intro done h i hi
      rw [List.foldl_cons] at hi ⊢
      refine ih (classifyStep done c) ?_ i hi
      intro i2 hi2
      rw [classifyStep_length] at hi2
      by_cases hlt : i2 < done.length
      · obtain ⟨E, hE, _⟩ := classifyStep_eq done c
        rw [hE]
        exact entrySpec_append done E i2 hlt (h i2 hlt)
      · have hi2e : i2 = done.length := by omega
        subst hi2e
        exact classifyStep_new_spec done c

/-- The specification holds for every entry of `classify`. -/
theorem classify_entry_spec (cs : List ContourData) (i : ℕ)
    (hi : i < (classify cs).length) : EntrySpec (classify cs) i :=
  classify_spec cs [] (fun _ h => absurd h (by simp)) i hi

theorem classify_length (cs : List ContourData) :
    (classify cs).length = cs.length := by
  rw [classify, classify_foldl_length]
  simp

theorem classify_points_area (cs : List ContourData) (i : ℕ) (hi : i < cs.length) :
    ((classify cs).getD i default).points = (cs.getD i ⟨[], 0⟩).points ∧
    ((classify cs).getD i default).area = (cs.getD i ⟨[], 0⟩).area := by
  have h := classify_foldl_entry cs [] i hi
  simpa [classify] using h

theorem windStep_solid (st : List ShapeAcc × ℕ) (c : Classified)
    (hh : c.isHole = false) :
    windStep st c = (st.1 ++
      [⟨st.2, if isClockWise c.points then c.points.reverse else c.points, []⟩],
      st.2 + 1) := by
  simp [windStep, hh]

theorem windStep_hole_none (st : List ShapeAcc × ℕ) (c : Classified)
    (hh : c.isHole = true) (hp : c.parent = none) :
    windStep st c = (st.1, st.2 + 1) := by
  simp [windStep, hh, hp]

theorem windStep_hole_found (st : List ShapeAcc × ℕ) (c : Classified) (p : ℕ)
    (hh : c.isHole = true) (hp : c.parent = some p)
    (hf : st.1.any (fun s => decide (s.index = p)) = true) :
    windStep st c = (st.1.map (fun s =>
      if s.index = p then
        ⟨s.index, s.outer, s.holes ++
          [if ! isClockWise c.points then c.points.reverse else c.points]⟩
      else s), st.2 + 1) := by
  simp [windStep, hh, hp, hf]

theorem windStep_hole_missing (st : List ShapeAcc × ℕ) (c : Classified) (p : ℕ)
    (hh : c.isHole = true) (hp : c.parent = some p)
    (hf : st.1.any (fun s => decide (s.index = p)) = false) :
    windStep st c = (st.1, st.2 + 1) := by
  simp [windStep, hh, hp, hf]

theorem orientRing_nonneg (pts : List Q2) :
    0 ≤ signedArea (if isClockWise pts then pts.reverse else pts) := by
  by_cases h : isClockWise pts = true
  · rw [if_pos h, signedArea_reverse]
    have h2 : signedArea pts < 0 := of_decide_eq_true h
    linarith
  · rw [if_neg h]
    have h2 : ¬ signedArea pts < 0 := fun hlt => h (decide_eq_true hlt)
    linarith

theorem orientRing_nonpos (pts : List Q2) :
    signedArea (if ! isClockWise pts then pts.reverse else pts) ≤ 0 := by
  by_cases h : isClockWise pts = true
  · rw [if_neg (by simp [h])]
    have h2 : signedArea pts < 0 := of_decide_eq_true h
    linarith
  · have hb : isClockWise pts = false := Bool.eq_false_iff.mpr h
    rw [if_pos (by simp [hb]), signedArea_reverse]
    have h2 : ¬ signedArea pts < 0 := fun hlt => h (decide_eq_true hlt)
    linarith

theorem windFold_orient :
    ∀ (l : List Classified) (st : List ShapeAcc × ℕ),
      (∀ s ∈ st.1, WindOrient s) →
      ∀ s ∈ (l.foldl windStep st).1, WindOrient s := by
  intro l
  induction l with
  | nil =>
      intro st hst s hs
      exact hst s hs
  | cons c rest ih =>
      intro st hst
      rw [List.foldl_cons]
      refine ih (windStep st c) ?_
      intro s hs
      by_cases hh : c.isHole = true
      · cases hp : c.parent with
        | none =>
            rw [windStep_hole_none st c hh hp] at hs
            exact hst s hs
        | some p =>
            by_cases hf : st.1.any (fun s2 => decide (s2.index = p)) = true
            · rw [windStep_hole_found st c p hh hp hf] at hs
              obtain ⟨s0, hs0, rfl⟩ := List.mem_map.mp hs
              by_cases hidx : s0.index = p
              · rw [if_pos hidx]
                obtain ⟨ho, hr⟩ := hst s0 hs0
                refine ⟨ho, ?_⟩
                intro r hrr
                rcases List.mem_append.mp hrr with hrr | hrr
                · exact hr r hrr
                · rw [List.mem_singleton.mp hrr]
                  exact orientRing_nonpos c.points
              · rw [if_neg hidx]
                exact hst s0 hs0
            · rw [windStep_hole_missing st c p hh hp (Bool.eq_false_iff.mpr hf)] at hs
              exact hst s hs
      · have hh2 : c.isHole = false := Bool.eq_false_iff.mpr hh
        rw [windStep_solid st c hh2] at hs
        rcases List.mem_append.mp hs with hs | hs
        · exact hst s hs
        · rw [List.mem_singleton.mp hs]
          exact ⟨orientRing_nonneg c.points, fun r hrr => absurd hrr (by simp)⟩

/-- Pushing a hole ring onto every shape of index `p` adds to the total
hole count exactly the number of shapes with that index. -/
theorem map_update_sum (shapes : List ShapeAcc) (p : ℕ) (ring : List Q2) :
    ((shapes.map (fun s =>
        if s.index = p then ⟨s.index, s.outer, s.holes ++ [ring]⟩ else s)).map
      (fun s => s.holes.length)).sum =
      (shapes.map (fun s => s.holes.length)).sum +
        (shapes.map (fun s => s.index)).count p := by
  induction shapes with
  | nil => simp
  | cons s rest ih =>
      simp only [List.map_cons, List.sum_cons, List.count_cons]
      by_cases h : s.index = p
      · rw [if_pos h]
        simp only [List.length_append, List.length_cons, List.length_nil]
        rw [ih]
        simp [h]
        omega
      · rw [if_neg h]
        rw [ih]
        have hbe : (s.index == p) = false := by simp [h]
        simp [hbe]
        omega

/-- A hole entry always finds its parent shape, and the drop branch never
fires: the invariant relates the shape indexes to the non-hole positions
already processed and the accumulated hole rings to the hole positions
already processed. -/
theorem windFold_count (out : List Classified)
    (hspec : ∀ i, i < out.length → EntrySpec out i) :
    ∀ (l : List Classified) (k : ℕ) (shapes : List ShapeAcc),
      l = out.drop k → k ≤ out.length →
      shapes.map (fun s => s.index) =
        (List.range k).filter (fun j => (out.getD j default).isHole = false) →
      (shapes.map (fun s => s.holes.length)).sum =
        (out.take k).countP (fun c => c.isHole) →
      ((l.foldl windStep (shapes, k)).1.map (fun s => s.holes.length)).sum =
        out.countP (fun c => c.isHole) ∧
      (l.foldl windStep (shapes, k)).1.map (fun s => s.index) =
        (List.range out.length).filter (fun j => (out.getD j default).isHole = false) := by
  intro l
  induction l with
  | nil =>
      intro k shapes hdrop hk hmap hsum
      have hke : k = out.length := by
        have := (List.drop_eq_nil_iff).mp hdrop.symm
        omega
      subst hke
      rw [List.foldl_nil]
      constructor
      · rw [hsum, List.take_of_length_le le_rfl]
      · exact hmap
  | cons c rest ih =>
      intro k shapes hdrop hk hmap hsum
      have hklt : k < out.length := by
        by_contra hge
        rw [List.drop_eq_nil_of_le (by omega)] at hdrop
        exact List.noConfusion hdrop
      have hck : out.getD k default = c := by
        have h1 : (out.drop k).head? = some c := by rw [← hdrop]; rfl
        rw [List.head?_drop] at h1
        rw [List.getD_eq_getElem?_getD, h1]
        rfl
      have hrest : rest = out.drop (k + 1) := by
        have h1 : (out.drop k).tail = rest := by rw [← hdrop]; rfl
        rw [List.tail_drop] at h1
        exact h1.symm
      have htake : out.take (k + 1) = out.take k ++ [c] := by
        rw [List.take_succ]
        have : out[k]? = some c := by
          have h1 : (out.drop k).head? = some c := by rw [← hdrop]; rfl
          rw [List.head?_drop] at h1
          exact h1
        rw [this]
        rfl
      rw [List.foldl_cons]
      by_cases hh : c.isHole = true
      · -- hole entry: the parent shape exists and receives the ring
        obtain ⟨e1, e2, e3, e4⟩ := hspec k hklt
        rw [hck] at e1 e2 e3 e4
        have hdodd : c.depth % 2 = 1 := e4.mp hh
        have hpar : ∃ j, c.parent = some j := by
          cases hpc : c.parent with
          | none =>
              have := e3 hpc
              omega
          | some j => exact ⟨j, rfl⟩
        obtain ⟨j, hpj⟩ := hpar
        obtain ⟨hjk, _, _, hdep⟩ := e2 j hpj
        have hjlt : j < out.length := by omega
        obtain ⟨f1, f2, f3, f4⟩ := hspec j hjlt
        have hjhole : (out.getD j default).isHole = false := by
          cases hb : (out.getD j default).isHole with
          | false => rfl
          | true =>
              have := f4.mp hb
              omega
        have hmem : j ∈ shapes.map (fun s => s.index) := by
          rw [hmap, List.mem_filter]
          refine ⟨List.mem_range.mpr hjk, ?_⟩
          simp only [decide_eq_true_eq]
          exact hjhole
        have hfound : shapes.any (fun s => decide (s.index = j)) = true := by
          rw [List.any_eq_true]
          obtain ⟨s0, hs0, hs0e⟩ := List.mem_map.mp hmem
          exact ⟨s0, hs0, decide_eq_true hs0e⟩
        rw [windStep_hole_found (shapes, k) c j hh hpj hfound]
        have hcount : (shapes.map (fun s => s.index)).count j = 1 := by
          rw [hmap]
          exact List.count_eq_one_of_mem
            ((List.nodup_range k).filter _) (by rw [← hmap]; exact hmem)
        refine ih (k + 1) _ hrest (by omega) ?_ ?_
        · rw [List.map_map]
          have hcomp : ((fun s : ShapeAcc => s.index) ∘ (fun s =>
              if s.index = j then ⟨s.index, s.outer, s.holes ++
                [if ! isClockWise c.points then c.points.reverse else c.points]⟩
              else s)) = fun s : ShapeAcc => s.index := by
            funext s
            by_cases hi : s.index = j <;> simp [hi]
          rw [hcomp, hmap, List.range_succ, List.filter_append]
          have hfk : (List.filter (fun j2 => decide ((out.getD j2 default).isHole = false)) [k]) = [] := by
            simp only [List.filter_cons, List.filter_nil]
            rw [hck, hh]
            simp
          rw [hfk, List.append_nil]
        · rw [map_update_sum, hsum, hcount, htake, List.countP_append]
          simp [hh]
      · -- solid entry: a new shape is appended
        have hh2 : c.isHole = false := Bool.eq_false_iff.mpr hh
        rw [windStep_solid (shapes, k) c hh2]
        refine ih (k + 1) _ hrest (by omega) ?_ ?_
        · rw [List.map_append, hmap, List.range_succ, List.filter_append]
          have hfk : (List.filter (fun j2 => decide ((out.getD j2 default).isHole = false)) [k]) = [k] := by
            simp only [List.filter_cons, List.filter_nil]
            rw [hck, hh2]
            simp
          rw [hfk]
          simp
        · rw [List.map_append, List.sum_append, hsum, htake, List.countP_append]
          simp [hh2]

/-- Concrete evaluation: classifying the single degenerate contour. -/
theorem classify_degen_eval :
    classify [degenContour] = [⟨[(0, 0), (1, 0)], 0, 0, none, false⟩] := rfl

/-- Concrete evaluation: the winding pass emits the degenerate contour as
a single shape with its points unchanged. -/
theorem enforceWinding_degen_eval :
    enforceWinding (classify [degenContour]) = [⟨0, [(0, 0), (1, 0)], []⟩] := by
  norm_num [enforceWinding, classify, classifyStep, findParentAux, windStep,
    isClockWise, signedArea, edgeSum, cross2, degenContour, List.getLastI]

/-- Concrete evaluation: classifying the nested squares marks the inner
square as a hole of the outer one. -/
theorem classify_csPair_eval :
    classify csPair = [⟨sqBig.points, 200, 0, none, false⟩,
      ⟨sqSmall.points, 8, 1, some 0, true⟩] := by
  norm_num [classify, classifyStep, findParentAux, rayCastStep, isPointInPolygon,
    csPair, sqBig, sqSmall, List.getLastI, List.zip, List.zipWith, List.foldl]

/-- C1: for every sorted (descending-area) contour list, the hierarchy
pass assigns to each contour the earlier contour of smallest area whose
point set contains the contour's first point under ray-casting parity
(`EntrySpec`: no parent exactly when no earlier contour contains it,
a parent is an earlier containing contour of minimal area among the
earlier containing ones, depth is the parent's depth plus one or zero,
and `isHole` holds exactly when the depth is odd); the classified entry
carries the contour's own points and area. -/
theorem classify_parent_smallest_containing (cs : List ContourData)
    (_hs : cs.Sorted (fun c1 c2 => c2.area ≤ c1.area)) (i : ℕ) (hi : i < cs.length) :
    EntrySpec (classify cs) i ∧
    ((classify cs).getD i default).points = (cs.getD i ⟨[], 0⟩).points ∧
    ((classify cs).getD i default).area = (cs.getD i ⟨[], 0⟩).area :=
  ⟨classify_entry_spec cs i (by rw [classify_length]; exact hi),
    (classify_points_area cs i hi).1, (classify_points_area cs i hi).2⟩

/-- Witness for C1 on the concrete nested-squares input. -/
theorem classify_parent_smallest_containing_witness :
    EntrySpec (classify csPair) 1 ∧
    ((classify csPair).getD 1 default).points = (csPair.getD 1 ⟨[], 0⟩).points ∧
    ((classify csPair).getD 1 default).area = (csPair.getD 1 ⟨[], 0⟩).area :=
  classify_parent_smallest_containing csPair (by decide) 1 (by decide)

/-- C2 counterexample: the claim "every emitted Shape has a
counter-clockwise outer boundary" fails on the code for a degenerate
zero-area contour (which the tracer produces for a straight open chain):
the emitted outer boundary has signed area zero and is not
counter-clockwise. -/
theorem winding_ccw_counterexample :
    ∃ s ∈ enforceWinding (classify [degenContour]),
      ¬ (0 < signedArea s.outer) := by
  refine ⟨⟨0, [(0, 0), (1, 0)], []⟩,
    by rw [enforceWinding_degen_eval]; exact List.mem_singleton_self _, ?_⟩
  have h0 : signedArea [((0 : ℚ), (0 : ℚ)), (1, 0)] = 0 := by
    norm_num [signedArea, edgeSum, cross2, List.getLastI]
  show ¬ (0 < signedArea [((0 : ℚ), (0 : ℚ)), (1, 0)])
  rw [h0]
  exact lt_irrefl 0

/-- C2 amended: every emitted Shape's outer boundary is never clockwise
(signed area nonnegative) and every attached hole ring is never
counter-clockwise (signed area nonpositive), at all nesting depths; for
rings of nonzero area this is exactly counter-clockwise
respectively clockwise. -/
theorem winding_orientation (cs : List ContourData) :
    ∀ s ∈ enforceWinding (classify cs),
      0 ≤ signedArea s.outer ∧ ∀ r ∈ s.holes, signedArea r ≤ 0 := by
  intro s hs
  exact windFold_orient (classify cs) ([], 0) (by simp) s hs

/-- Witness for the amended C2 on the degenerate-contour input. -/
theorem winding_orientation_witness :
    0 ≤ signedArea ((⟨0, [(0, 0), (1, 0)], []⟩ : ShapeAcc)).outer ∧
    ∀ r ∈ ((⟨0, [(0, 0), (1, 0)], []⟩ : ShapeAcc)).holes, signedArea r ≤ 0 :=
  winding_orientation [degenContour] ⟨0, [(0, 0), (1, 0)], []⟩
    (by rw [enforceWinding_degen_eval]; exact List.mem_singleton_self _)

/-- C3: in vector mode, when the merge with the base slab yields no
result, the builder does not fail and falls back to returning the last
successfully merged partial mesh (the translated, unmerged extrusion), so
the caller still receives a mesh. -/
theorem solid_geometry_merge_fallback {G S : Type} (P : SolidParams G S)
    (shapes : List S) (m : G)
    (hne : shapes.isEmpty = false)
    (h1 : P.mergeG (shapes.map P.extrudeOne) = some m)
    (h2 : P.mergeG [P.normBase, P.translateUp m] = none) :
    createSolidGeometryFlat P shapes true = P.translateUp m := by
  simp [createSolidGeometryFlat, hne, h1, h2]

/-- Witness for C3 with a concrete failing merge oracle. -/
theorem solid_geometry_merge_fallback_witness :
    createSolidGeometryFlat demoParams [()] true = demoParams.translateUp 7 :=
  solid_geometry_merge_fallback demoParams [()] 7 rfl rfl rfl

/-- C4: at tolerance zero the simplifier returns a subsequence with the
original first and last points, and `DPZero` certifies that the only
removed interior points are those at perpendicular distance exactly zero
from the segment joining the endpoints of their sub-range. -/
theorem simplify_zero_tolerance (pts : List Q2) :
    (simplifyPath pts 0).Sublist pts ∧
    (simplifyPath pts 0).head? = pts.head? ∧
    (simplifyPath pts 0).getLast? = pts.getLast? ∧
    DPZero pts (simplifyPath pts 0) :=
  ⟨simplifyPath_sublist pts 0, simplifyPath_head? pts 0,
    simplifyPath_getLast? pts 0, simplifyPath_zero_dpzero_aux pts.length pts le_rfl⟩

/-- Witness for C4 on a concrete path. -/
theorem simplify_zero_tolerance_witness :
    (simplifyPath demoPath 0).Sublist demoPath ∧
    (simplifyPath demoPath 0).head? = demoPath.head? ∧
    (simplifyPath demoPath 0).getLast? = demoPath.getLast? ∧
    DPZero demoPath (simplifyPath demoPath 0) :=
  simplify_zero_tolerance demoPath

/-- C5: increasing the tolerance never increases the point count.  The
embedded simplifier takes the squared tolerance; squaring is monotone on
the nonnegative tolerances of the source, so this statement over all
ordered pairs of squared tolerances covers the claim. -/
theorem simplify_tolerance_monotone (pts : List Q2) (tolSq1 tolSq2 : ℚ)
    (h12 : tolSq1 ≤ tolSq2) :
    (simplifyPath pts tolSq2).length ≤ (simplifyPath pts tolSq1).length :=
  simplifyPath_length_mono_aux pts.length pts tolSq1 tolSq2 le_rfl h12

/-- Witness for C5 on a concrete path and tolerances. -/
theorem simplify_tolerance_monotone_witness :
    (0 : ℚ) ≤ 1 ∧
    (simplifyPath demoPath 1).length ≤ (simplifyPath demoPath 0).length :=
  ⟨by decide, simplify_tolerance_monotone demoPath 0 1 (by decide)⟩

/-- C6: the simplifier is idempotent at any fixed nonnegative (squared)
tolerance: re-simplifying its own output changes nothing. -/
theorem simplify_idempotent (pts : List Q2) (tolSq : ℚ) (ht : 0 ≤ tolSq) :
    simplifyPath (simplifyPath pts tolSq) tolSq = simplifyPath pts tolSq :=
  simplifyPath_idem_aux pts.length pts tolSq le_rfl ht

/-- Witness for C6 on a concrete path. -/
theorem simplify_idempotent_witness :
    (0 : ℚ) ≤ 1 ∧
    simplifyPath (simplifyPath demoPath 1) 1 = simplifyPath demoPath 1 :=
  ⟨by decide, simplify_idempotent demoPath 1 (by decide)⟩

/-- C7: the scalar-field value computed per pixel equals the spec formula
(luminance `0.299·R + 0.587·G + 0.114·B` over 255, times `alpha/255`,
inverted on request, contrast-stretched with clamping when
`contrast > 1`), and it always lies in `[0, 1]`. -/
theorem grid_value_formula_and_range (r g b a : ℕ) (invert : Bool)
    (contrast : ℚ) (hr : r ≤ 255) (hg : g ≤ 255) (hb : b ≤ 255)
    (ha : a ≤ 255) :
    gridValue r g b a invert contrast = gridValueSpec r g b a invert contrast ∧
    0 ≤ gridValue r g b a invert contrast ∧
    gridValue r g b a invert contrast ≤ 1 := by
  refine ⟨rfl, ?_⟩
  have hr2 : (r : ℚ) ≤ 255 := by exact_mod_cast hr
  have hg2 : (g : ℚ) ≤ 255 := by exact_mod_cast hg
  have hb2 : (b : ℚ) ≤ 255 := by exact_mod_cast hb
  have ha2 : (a : ℚ) ≤ 255 := by exact_mod_cast ha
  have h1a : 0 ≤ (0.299 * (r : ℚ) + 0.587 * (g : ℚ) + 0.114 * (b : ℚ)) / 255 := by
    positivity
  have h1b : (0.299 * (r : ℚ) + 0.587 * (g : ℚ) + 0.114 * (b : ℚ)) / 255 ≤ 1 := by
    rw [div_le_one (by norm_num)]
    linarith
  have h2a : 0 ≤ (a : ℚ) / 255 := by positivity
  have h2b : (a : ℚ) / 255 ≤ 1 := by
    rw [div_le_one (by norm_num)]
    exact ha2
  have hv2a : 0 ≤ ((0.299 * (r : ℚ) + 0.587 * (g : ℚ) + 0.114 * (b : ℚ)) / 255) *
      ((a : ℚ) / 255) := mul_nonneg h1a h2a
  have hv2b : ((0.299 * (r : ℚ) + 0.587 * (g : ℚ) + 0.114 * (b : ℚ)) / 255) *
      ((a : ℚ) / 255) ≤ 1 := mul_le_one₀ h1b h2a h2b
  unfold gridValue
  dsimp only
  split_ifs <;>
    constructor <;>
    first
      | exact le_max_left 0 _
      | exact max_le (by norm_num) (min_le_left 1 _)
      | linarith

/-- Witness for C7 on a concrete pixel. -/
theorem grid_value_formula_and_range_witness :
    gridValue 10 200 30 128 true 3 = gridValueSpec 10 200 30 128 true 3 ∧
    0 ≤ gridValue 10 200 30 128 true 3 ∧ gridValue 10 200 30 128 true 3 ≤ 1 :=
  grid_value_formula_and_range 10 200 30 128 true 3
    (by decide) (by decide) (by decide) (by decide)

/-- C8: the relief-mode z coordinate equals the spec formula (plain
channel average over 255, inverted on request, scaled and offset), and it
does not depend on `maskThreshold`, `contrast` or `simplification`. -/
theorem relief_z_formula_independent (d : ℕ → ℕ) (res : ℕ)
    (s1 s2 : MeshSettings) (i : ℕ)
    (hinv : s1.invert = s2.invert) (hhs : s1.heightScale = s2.heightScale)
    (hbt : s1.baseThickness = s2.baseThickness) :
    reliefZ d res s1 i =
      reliefZSpec d res s1.invert s1.heightScale s1.baseThickness i ∧
    reliefZ d res s1 i = reliefZ d res s2 i := by
  constructor
  · rfl
  · unfold reliefZ
    rw [hinv, hhs, hbt]

/-- Witness for C8 with two settings differing only in contouring
fields. -/
theorem relief_z_formula_independent_witness :
    reliefZ demoPixels 4 demoSettingsA 5 =
      reliefZSpec demoPixels 4 demoSettingsA.invert demoSettingsA.heightScale
        demoSettingsA.baseThickness 5 ∧
    reliefZ demoPixels 4 demoSettingsA 5 = reliefZ demoPixels 4 demoSettingsB 5 :=
  relief_z_formula_independent demoPixels 4 demoSettingsA demoSettingsB 5 rfl rfl rfl

/-- C9: with `settings.simplification = 0` the pipeline passes tolerance
0.1 to the simplifier (`simplification || 0.1` treats 0 as absent), and no
simplification value can make the effective tolerance zero, so exact
zero-tolerance simplification is unreachable through the pipeline. -/
theorem effective_tolerance_never_zero :
    effectiveTolerance 0 = 0.1 ∧
    (∀ s : ℚ, effectiveTolerance s ≠ 0) ∧
    ∀ (res : ℚ) (l : List Q2), prepContour res 0 l = prepContour res 0.1 l := by
  refine ⟨rfl, ?_, ?_⟩
  · intro s
    unfold effectiveTolerance
    split_ifs with h
    · norm_num
    · exact h
  · intro res l
    unfold prepContour effectiveTolerance
    norm_num

/-- Witness for C9 at concrete inputs. -/
theorem effective_tolerance_never_zero_witness :
    effectiveTolerance 0 = 0.1 ∧ effectiveTolerance 5 ≠ 0 ∧
    prepContour 4 0 demoPath = prepContour 4 0.1 demoPath :=
  ⟨effective_tolerance_never_zero.1, effective_tolerance_never_zero.2.1 5,
    effective_tolerance_never_zero.2.2 4 demoPath⟩

/-- C10: every classified hole has a parent that is an earlier non-hole
contour, whose shape therefore already exists when the hole is processed;
consequently the winding pass appends every hole ring to exactly one
parent shape (total hole-ring count equals the number of classified
holes), and the drop branch for a missing or uninstantiated parent never
fires. -/
theorem hole_parent_instantiated (cs : List ContourData) :
    (∀ i, i < (classify cs).length →
      ((classify cs).getD i default).isHole = true →
      ∃ j, ((classify cs).getD i default).parent = some j ∧ j < i ∧
        ((classify cs).getD j default).isHole = false) ∧
    ((enforceWinding (classify cs)).map (fun s => s.holes.length)).sum =
      (classify cs).countP (fun c => c.isHole) := by
  constructor
  · intro i hi hhole
    obtain ⟨e1, e2, e3, e4⟩ := classify_entry_spec cs i hi
    have hdodd := e4.mp hhole
    cases hpc : ((classify cs).getD i default).parent with
    | none =>
        have := e3 hpc
        omega
    | some j =>
        obtain ⟨hjk, _, _, hdep⟩ := e2 j hpc
        refine ⟨j, rfl, hjk, ?_⟩
        obtain ⟨_, _, _, f4⟩ := classify_entry_spec cs j (by omega)
        cases hb : ((classify cs).getD j default).isHole with
        | false => rfl
        | true =>
            have := f4.mp hb
            omega
  · have h := windFold_count (classify cs) (classify_entry_spec cs)
      (classify cs) 0 [] (by simp) (by omega) (by simp) (by simp)
    exact h.1

/-- Witness for C10 on the nested-squares input: the single hole is
attached and counted exactly once. -/
theorem hole_parent_instantiated_witness :
    (∃ j, ((classify csPair).getD 1 default).parent = some j ∧ j < 1 ∧
      ((classify csPair).getD j default).isHole = false) ∧
    ((enforceWinding (classify csPair)).map (fun s => s.holes.length)).sum =
      (classify csPair).countP (fun c => c.isHole) :=
  ⟨(hole_parent_instantiated csPair).1 1
      (by rw [classify_csPair_eval]; decide)
      (by rw [classify_csPair_eval]; rfl),
    (hole_parent_instantiated csPair).2⟩

end Mono3D

